import Mathlib

/-!
Verification development for a discrete-event queueing simulator.

The embedding translates the C++ sources:
  * `simple_simulator/simulator.cpp` and the `simulator.h` header
    (engine: event loop, cores, buffer, statistics),
  * the queue-discipline header (FIFO / LIFO / Random / Priority / RoundRobin
    strategies),
  * the random-generator header (Exponential / Uniform / Deterministic /
    Erlang generators).

Modelling conventions:
  * C++ `double` time values are modelled as exact rationals `ℚ`.
  * A stochastic generator is modelled by the stream of values its
    `generate()` calls return: the engine takes two streams `ℕ → ℚ`
    (inter-arrival samples and service samples) and consumes them in order.
  * `std::priority_queue<Event, vector<Event>, greater<Event>>` orders events
    by `time` only; the order among events with equal time is unspecified.
    The embedding keeps the pending events as a list and pops a minimal-time
    event chosen by a selector stream `sels : ℕ → ℕ`, so every theorem
    quantified over `sels` holds for every tie-break order.
  * exceptions are modelled by `Option` (a constructor that throws yields
    `none`).
  * the `processed_events` field is a history observer recording the events
    the loop has consumed, in order; no engine operation reads it.
-/

namespace Sim

/-- Job record (`struct Job` in `simulator.h`): id, arrival/service times,
and the start/finish times with `-1` as the "not yet" sentinel. -/
structure Job where
  id : Int
  arrival_time : ℚ
  service_time : ℚ
  start_time : ℚ
  finish_time : ℚ
deriving DecidableEq

/-- Derived wait time: `start_time - arrival_time` when started
(`start_time >= 0`), else `0` (`Job::wait_time`). -/
def Job.wait_time (j : Job) : ℚ :=
  if 0 ≤ j.start_time then j.start_time - j.arrival_time else 0

/-- Derived system time: `finish_time - arrival_time` when finished, else `0`
(`Job::system_time`). -/
def Job.system_time (j : Job) : ℚ :=
  if 0 ≤ j.finish_time then j.finish_time - j.arrival_time else 0

/-- Event kind (`Event::Type` in `simulator.h`). -/
inductive EventType where
  | arrival
  | departure
deriving DecidableEq

/-- Event record (`struct Event`): time, kind, and for departures the job and
core ids (`-1` for arrivals). -/
structure Event where
  time : ℚ
  etype : EventType
  job_id : Int
  core_id : Int
deriving DecidableEq

/-- Arrival-event constructor `Event(t, ARRIVAL)`. -/
def Event.mkArrival (t : ℚ) : Event := ⟨t, .arrival, -1, -1⟩

/-- Departure-event constructor `Event(t, jid, cid)`. -/
def Event.mkDeparture (t : ℚ) (jid cid : Int) : Event := ⟨t, .departure, jid, cid⟩

/-- Engine state: the fields of class `Simulator`.  `arrival_idx` and
`service_idx` count how many samples each generator stream has produced,
and `processed_events` is the history observer described above. -/
structure SimState where
  current_time : ℚ
  jobs_completed : ℕ
  jobs_lost : ℕ
  next_job_id : Int
  total_arrivals : ℕ
  num_cores : ℕ
  buffer_capacity : Int
  event_queue : List Event
  job_queue : List Job
  cores_busy : List Bool
  cores_finish_time : List ℚ
  cores_current_job : List Int
  active_jobs : List (Int × Job)
  wait_times : List ℚ
  system_times : List ℚ
  total_busy_time : ℚ
  last_busy_check_time : ℚ
  arrival_idx : ℕ
  service_idx : ℕ
  processed_events : List Event
deriving DecidableEq

/-! Association-list operations modelling the `std::map<int, Job>`
`active_jobs_`. -/

/-- Map insert-or-assign (`active_jobs_[id] = job`): replaces the entry with
key `k` if present, otherwise appends a new entry. -/
def assocSet (l : List (Int × Job)) (k : Int) (v : Job) : List (Int × Job) :=
  match l with
  | [] => [(k, v)]
  | (k', v') :: rest =>
    if k' = k then (k, v) :: rest else (k', v') :: assocSet rest k v

/-- Map lookup (`active_jobs_.find(id)`). -/
def assocFind (l : List (Int × Job)) (k : Int) : Option Job :=
  match l with
  | [] => none
  | (k', v') :: rest => if k' = k then some v' else assocFind rest k

/-- Map erase (`active_jobs_.erase(id)`): removes the entry with key `k`,
if any (keys are unique in every reachable state). -/
def assocErase (l : List (Int × Job)) (k : Int) : List (Int × Job) :=
  match l with
  | [] => []
  | (k', v') :: rest => if k' = k then rest else (k', v') :: assocErase rest k

/-- In-place mutation of a present entry
(`active_jobs_[id].start_time = ...` with `id` known to be present). -/
def assocModify (l : List (Int × Job)) (k : Int) (f : Job → Job) :
    List (Int × Job) :=
  match l with
  | [] => []
  | (k', v') :: rest =>
    if k' = k then (k', f v') :: rest else (k', v') :: assocModify rest k f

/-! Event-queue extraction.  `selectMin` pops some event of minimal time;
the selector `sel` chooses which one among ties. -/

/-- Minimal time among `e :: es`. -/
def minTimeOf (e : Event) : List Event → ℚ
  | [] => e.time
  | f :: fs => min e.time (minTimeOf f fs)

/-- Extract the `n`-th (0-based) event whose time equals `m`, returning it
together with the remaining events in their original order. -/
def extractTimed (m : ℚ) : ℕ → List Event → Option (Event × List Event)
  | _, [] => none
  | n, e :: es =>
    if e.time = m then
      match n with
      | 0 => some (e, es)
      | n' + 1 =>
        match extractTimed m n' es with
        | some (x, rest) => some (x, e :: rest)
        | none => none
    else
      match extractTimed m n es with
      | some (x, rest) => some (x, e :: rest)
      | none => none

/-- Pop a minimal-time event from the pending-event list; `sel` picks the
tie-break among events sharing the minimal time. -/
def selectMin (sel : ℕ) (es : List Event) : Option (Event × List Event) :=
  match es with
  | [] => none
  | e :: rest =>
    let m := minTimeOf e rest
    extractTimed m (sel % (e :: rest).countP (fun f => f.time = m)) (e :: rest)

/-! Engine helper methods. -/

/-- First free core (`Simulator::find_free_core`; `none` models `-1`). -/
def findFreeCore (busy : List Bool) : Option ℕ :=
  busy.findIdx? (fun b => !b)

/-- Number of busy cores (`Simulator::count_busy_cores`). -/
def countBusyCores (busy : List Bool) : ℕ :=
  busy.countP (fun b => b)

/-- Buffer-admission test (`Simulator::buffer_full`): never full for the
unbounded sentinel `-1`, else full when the queue length reaches capacity. -/
def bufferFull (s : SimState) : Bool :=
  if s.buffer_capacity = -1 then false
  else decide ((s.job_queue.length : Int) ≥ s.buffer_capacity)

/-- Busy-time integration (`Simulator::update_busy_statistics`). -/
def updateBusyStatistics (s : SimState) : SimState :=
  if s.last_busy_check_time < s.current_time then
    { s with
      total_busy_time := s.total_busy_time +
        (s.current_time - s.last_busy_check_time) *
          (countBusyCores s.cores_busy : ℚ),
      last_busy_check_time := s.current_time }
  else s

/-- Mark a core busy with a job (`Simulator::occupy_core`); the C++ range
check can never fire because every scheduled departure carries a valid core
id, so the embedding writes through `List.set`. -/
def occupyCore (s : SimState) (core_id : ℕ) (job_id : Int)
    (finish_time : ℚ) : SimState :=
  { s with
    cores_busy := s.cores_busy.set core_id true,
    cores_finish_time := s.cores_finish_time.set core_id finish_time,
    cores_current_job := s.cores_current_job.set core_id job_id }

/-- Free a core (`Simulator::release_core`), resetting its slot data. -/
def releaseCore (s : SimState) (core_id : ℕ) : SimState :=
  { s with
    cores_busy := s.cores_busy.set core_id false,
    cores_finish_time := s.cores_finish_time.set core_id 0,
    cores_current_job := s.cores_current_job.set core_id (-1) }

/-- Schedule the next arrival (`Simulator::schedule_next_arrival`): draw an
inter-arrival interval from the arrival stream and push an arrival event at
`current_time + interval`. -/
def scheduleNextArrival (aS : ℕ → ℚ) (s : SimState) : SimState :=
  { s with
    arrival_idx := s.arrival_idx + 1,
    event_queue := s.event_queue ++ [Event.mkArrival (s.current_time + aS s.arrival_idx)] }

/-- Schedule a departure (`Simulator::schedule_departure`) at
`current_time + service_time`. -/
def scheduleDeparture (s : SimState) (job_id : Int) (core_id : ℕ)
    (service_time : ℚ) : SimState :=
  { s with
    event_queue := s.event_queue ++
      [Event.mkDeparture (s.current_time + service_time) job_id (core_id : Int)] }

/-- Arrival handling (`Simulator::process_arrival`): count the arrival,
sample a service time, create the job; start it on a free core if any,
else lose it when the buffer is full, else enqueue it; finally schedule
the next arrival. -/
def processArrival (aS sS : ℕ → ℚ) (s : SimState) : SimState :=
  let service_time := sS s.service_idx
  let new_id := s.next_job_id
  let new_job : Job := ⟨new_id, s.current_time, service_time, -1, -1⟩
  let s1 : SimState :=
    { s with
      total_arrivals := s.total_arrivals + 1,
      service_idx := s.service_idx + 1,
      next_job_id := s.next_job_id + 1,
      active_jobs := assocSet s.active_jobs new_id new_job }
  let s2 : SimState :=
    match findFreeCore s1.cores_busy with
    | some free_core =>
      scheduleDeparture
        (occupyCore
          { s1 with
            active_jobs := assocModify s1.active_jobs new_id
              (fun j => { j with start_time := s1.current_time }) }
          free_core new_id (s1.current_time + service_time))
        new_id free_core service_time
    | none =>
      if bufferFull s1 then
        { s1 with
          jobs_lost := s1.jobs_lost + 1,
          active_jobs := assocErase s1.active_jobs new_id }
      else
        { s1 with job_queue := s1.job_queue ++ [new_job] }
  scheduleNextArrival aS s2

/-- Departure handling (`Simulator::process_departure`): look the job up
(an untracked id is reported and the event dropped), record its statistics,
free the core, and dispatch the buffered job at the queue head, if any, onto
the freed core.  The event's `core_id` is an `Int` in the record; every
scheduled departure stores a genuine core index, read back via `toNat`. -/
def processDeparture (job_id : Int) (core_id : Int) (s : SimState) : SimState :=
  match assocFind s.active_jobs job_id with
  | none => s
  | some job0 =>
    let job := { job0 with finish_time := s.current_time }
    let cid := core_id.toNat
    let sA : SimState :=
      { s with active_jobs := assocSet s.active_jobs job_id job }
    let sB : SimState :=
      { sA with
        wait_times := sA.wait_times ++ [job.wait_time],
        system_times := sA.system_times ++ [job.system_time] }
    let sC : SimState := releaseCore sB cid
    let sD : SimState :=
      { sC with
        jobs_completed := sC.jobs_completed + 1,
        active_jobs := assocErase sC.active_jobs job_id }
    match sD.job_queue with
    | [] => sD
    | next_job :: restQ =>
      let sE : SimState := { sD with job_queue := restQ }
      match assocFind sE.active_jobs next_job.id with
      | none => sE
      | some jts0 =>
        let jts := { jts0 with start_time := sE.current_time }
        let sF : SimState :=
          { sE with active_jobs := assocSet sE.active_jobs next_job.id jts }
        scheduleDeparture
          (occupyCore sF cid jts.id (sF.current_time + jts.service_time))
          jts.id cid jts.service_time

/-- One iteration of the event loop: pop a minimal-time event, advance
`current_time` to it, integrate busy statistics, and dispatch by kind.
`none` only when the event queue is empty. -/
def simStep (aS sS : ℕ → ℚ) (sel : ℕ) (s : SimState) : Option SimState :=
  match selectMin sel s.event_queue with
  | none => none
  | some (ev, rest) =>
    let s' := updateBusyStatistics
      { s with
        event_queue := rest,
        current_time := ev.time,
        processed_events := s.processed_events ++ [ev] }
    some (match ev.etype with
          | .arrival => processArrival aS sS s'
          | .departure => processDeparture ev.job_id ev.core_id s')

/-- The shared event loop of `Simulator::run` and
`Simulator::run_until_jobs`: while the event queue is nonempty and the
continuation condition holds, process one event.  `fuel` bounds the
iteration count, modelling the `MAX_ITERATIONS` safety cap; `k` indexes the
selector stream. -/
def runLoop (aS sS : ℕ → ℚ) (sels : ℕ → ℕ) (cont : SimState → Bool)
    (k : ℕ) : ℕ → SimState → SimState
  | 0, s => s
  | fuel + 1, s =>
    if !s.event_queue.isEmpty && cont s then
      match simStep aS sS (sels k) s with
      | some s' => runLoop aS sS sels cont (k + 1) fuel s'
      | none => s
    else s

/-- Fresh engine state (`Simulator::initialize`, which also matches the
field values the constructor establishes). -/
def resetState (num_cores : ℕ) (buffer_cap : Int) : SimState where
  current_time := 0
  jobs_completed := 0
  jobs_lost := 0
  next_job_id := 0
  total_arrivals := 0
  num_cores := num_cores
  buffer_capacity := buffer_cap
  event_queue := []
  job_queue := []
  cores_busy := List.replicate num_cores false
  cores_finish_time := List.replicate num_cores 0
  cores_current_job := List.replicate num_cores (-1)
  active_jobs := []
  wait_times := []
  system_times := []
  total_busy_time := 0
  last_busy_check_time := 0
  arrival_idx := 0
  service_idx := 0
  processed_events := []

/-- Engine constructor (`Simulator::Simulator`): throws when
`num_cores <= 0` (modelled by `none`), otherwise produces the initial
state; `buffer_cap` is not validated. -/
def mkSimulator (num_cores : Int) (buffer_cap : Int) : Option SimState :=
  if num_cores ≤ 0 then none
  else some (resetState num_cores.toNat buffer_cap)

/-- Main loop entry `Simulator::run(simulation_time)`: reset all state,
schedule one initial arrival, then loop while the event queue is nonempty
and `current_time < simulation_time`, finally integrating the busy
statistics once more. -/
def run (aS sS : ℕ → ℚ) (sels : ℕ → ℕ) (num_cores : ℕ) (buffer_cap : Int)
    (simulation_time : ℚ) (fuel : ℕ) : SimState :=
  updateBusyStatistics
    (runLoop aS sS sels (fun s => decide (s.current_time < simulation_time)) 0
      fuel (scheduleNextArrival aS (resetState num_cores buffer_cap)))

/-- Loop entry `Simulator::run_until_jobs(jobs_to_process)`: identical loop
with stop condition `jobs_completed < jobs_to_process`. -/
def run_until_jobs (aS sS : ℕ → ℚ) (sels : ℕ → ℕ) (num_cores : ℕ)
    (buffer_cap : Int) (jobs_to_process : ℕ) (fuel : ℕ) : SimState :=
  updateBusyStatistics
    (runLoop aS sS sels (fun s => decide (s.jobs_completed < jobs_to_process)) 0
      fuel (scheduleNextArrival aS (resetState num_cores buffer_cap)))

/-! Statistics accessors. -/

/-- Mean wait time (`Simulator::avg_wait_time`): the loop sums the samples,
then divides by the count; `0` when no samples exist. -/
def avg_wait_time (s : SimState) : ℚ :=
  if s.wait_times = [] then 0
  else (s.wait_times.foldl (· + ·) 0) / (s.wait_times.length : ℚ)

/-- Mean system time (`Simulator::avg_system_time`). -/
def avg_system_time (s : SimState) : ℚ :=
  if s.system_times = [] then 0
  else (s.system_times.foldl (· + ·) 0) / (s.system_times.length : ℚ)

/-- Sample variance of wait times (`Simulator::wait_time_variance`): `0` for
fewer than 2 samples, else the loop accumulates squared deviations from the
mean and divides by `n - 1`. -/
def wait_time_variance (s : SimState) : ℚ :=
  if s.wait_times.length < 2 then 0
  else
    let mean := avg_wait_time s
    (s.wait_times.foldl (fun acc t => acc + (t - mean) * (t - mean)) 0) /
      ((s.wait_times.length : ℚ) - 1)

/-- Sample variance of system times (`Simulator::system_time_variance`). -/
def system_time_variance (s : SimState) : ℚ :=
  if s.system_times.length < 2 then 0
  else
    let mean := avg_system_time s
    (s.system_times.foldl (fun acc t => acc + (t - mean) * (t - mean)) 0) /
      ((s.system_times.length : ℚ) - 1)

/-- Number of jobs in the system (`Simulator::jobs_in_system`, the size of
the active-job table: in-service plus buffered jobs). -/
def jobs_in_system (s : SimState) : ℕ := s.active_jobs.length

/-- Current buffer occupancy (`Simulator::queue_length`). -/
def queue_length (s : SimState) : ℕ := s.job_queue.length

end Sim

namespace Gen

/-!
Stochastic generators (`random_generator.h`).  Each C++ class holds its
parameters and a `std::mt19937_64` source; the embedding keeps the
parameters and models the library distributions by their defining maps
where the C++ standard fixes them:
  * `std::uniform_real_distribution(a, b)` maps a source value
    `u ∈ [0, 1)` to `a + u * (b - a)`;
  * `std::exponential_distribution` produces a sample that the repository
    code never computes itself, so an Exponential `generate()` result is
    represented by an abstract draw value, and Erlang's `generate()` (which
    the repository does compute: a loop summing `k` such draws) by the sum
    over a draw stream.
Constructors that throw `invalid_argument` are modelled by `none`. -/

/-- Exponential(λ) generator parameters. -/
structure ExponentialGenerator where
  lambda : ℚ
deriving DecidableEq

/-- Constructor `ExponentialGenerator(lambda)`: throws iff `lambda <= 0`. -/
def ExponentialGenerator.create (lambda : ℚ) : Option ExponentialGenerator :=
  if lambda ≤ 0 then none else some ⟨lambda⟩

/-- Analytic mean `1/λ`. -/
def ExponentialGenerator.mean (g : ExponentialGenerator) : ℚ := 1 / g.lambda

/-- Analytic variance `1/λ²`. -/
def ExponentialGenerator.variance (g : ExponentialGenerator) : ℚ :=
  1 / (g.lambda * g.lambda)

/-- Uniform[a,b] generator parameters. -/
structure UniformGenerator where
  a : ℚ
  b : ℚ
deriving DecidableEq

/-- Constructor `UniformGenerator(a, b)`: throws iff `a >= b`. -/
def UniformGenerator.create (a b : ℚ) : Option UniformGenerator :=
  if a ≥ b then none else some ⟨a, b⟩

/-- Sample of `std::uniform_real_distribution(a, b)` from source value
`u ∈ [0, 1)`. -/
def UniformGenerator.generate (g : UniformGenerator) (u : ℚ) : ℚ :=
  g.a + u * (g.b - g.a)

/-- Analytic mean `(a+b)/2`. -/
def UniformGenerator.mean (g : UniformGenerator) : ℚ := (g.a + g.b) / 2

/-- Analytic variance `(b-a)²/12`. -/
def UniformGenerator.variance (g : UniformGenerator) : ℚ :=
  ((g.b - g.a) * (g.b - g.a)) / 12

/-- Deterministic(v) generator parameter. -/
structure DeterministicGenerator where
  value : ℚ
deriving DecidableEq

/-- Constructor `DeterministicGenerator(value)`: accepts every value. -/
def DeterministicGenerator.create (value : ℚ) : Option DeterministicGenerator :=
  some ⟨value⟩

/-- `generate()` always returns the stored value. -/
def DeterministicGenerator.generate (g : DeterministicGenerator) : ℚ := g.value

/-- Erlang(k, λ) generator parameters. -/
structure ErlangGenerator where
  k : Int
  lambda : ℚ
deriving DecidableEq

/-- Constructor `ErlangGenerator(k, lambda)`: throws iff `k <= 0` or
`lambda <= 0`. -/
def ErlangGenerator.create (k : Int) (lambda : ℚ) : Option ErlangGenerator :=
  if k ≤ 0 then none else if lambda ≤ 0 then none else some ⟨k, lambda⟩

/-- `generate()`: the loop summing `k` draws from the member exponential
distribution; `draws` is the stream of library samples. -/
def ErlangGenerator.generate (g : ErlangGenerator) (draws : ℕ → ℚ) : ℚ :=
  (List.range g.k.toNat).foldl (fun acc i => acc + draws i) 0

end Gen

namespace Disc

/-!
Queue disciplines (the disciplines header).  The buffered-item type is a
type variable, as in the C++ template. -/

/-- One operation of an interleaved push/pop schedule. -/
inductive QOp (α : Type) where
  | push (x : α)
  | pop
deriving DecidableEq

/-- FIFO strategy state: `std::queue` contents, front first. -/
def FIFOStrategy (α : Type) : Type := List α

/-- `FIFOStrategy::push`: enqueue at the back. -/
def fifoPush {α : Type} (q : List α) (x : α) : List α := q ++ [x]

/-- `FIFOStrategy::pop`: dequeue at the front; throws (`none`) when empty. -/
def fifoPop {α : Type} (q : List α) : Option (α × List α) :=
  match q with
  | [] => none
  | x :: rest => some (x, rest)

/-- Entry of the Priority strategy's heap
(`PriorityStrategy::PriorityItem`). -/
structure PriorityItem (α : Type) where
  item : α
  priority : Int
deriving DecidableEq

/-- `PriorityStrategy::push`: the assigned key is the *current number of
buffered items* (`queue_.size()` at enqueue time). -/
def prioPush {α : Type} (q : List (PriorityItem α)) (x : α) :
    List (PriorityItem α) :=
  q ++ [⟨x, (q.length : Int)⟩]

/-- `PriorityStrategy::pop`: remove an item with the smallest key
(`std::priority_queue` with `greater`).  The embedding removes the leftmost
smallest key; the theorems below only use it on states where the smallest
key is unique, where every tie-break agrees. -/
def prioPop {α : Type} (q : List (PriorityItem α)) :
    Option (PriorityItem α × List (PriorityItem α)) :=
  match q with
  | [] => none
  | p :: ps =>
    match prioPop ps with
    | none => some (p, [])
    | some (m, rest) =>
      if p.priority ≤ m.priority then some (p, ps) else some (m, p :: rest)

/-- Run a schedule through the FIFO strategy, collecting the popped items;
`none` models a pop throwing on an empty queue. -/
def runFIFO {α : Type} : List (QOp α) → List α → Option (List α)
  | [], _ => some []
  | .push x :: ops, q => runFIFO ops (fifoPush q x)
  | .pop :: ops, q =>
    match fifoPop q with
    | none => none
    | some (y, q') => (runFIFO ops q').map (fun out => y :: out)

/-- Run a schedule through the Priority strategy, collecting the popped
items. -/
def runPriority {α : Type} : List (QOp α) → List (PriorityItem α) →
    Option (List α)
  | [], _ => some []
  | .push x :: ops, q => runPriority ops (prioPush q x)
  | .pop :: ops, q =>
    match prioPop q with
    | none => none
    | some (m, q') => (runPriority ops q').map (fun out => m.item :: out)

/-- RoundRobin strategy state (`RoundRobinStrategy`): the sub-queues and the
single index `current_queue_` shared by `push` and `pop`. -/
structure RRState (α : Type) where
  queues : List (List α)
  current_queue : ℕ
deriving DecidableEq

/-- Fresh RoundRobin state with `k` sub-queues (the constructor throws on
`k = 0`; the theorems below take `k ≥ 1`). -/
def rrInit (α : Type) (k : ℕ) : RRState α :=
  ⟨List.replicate k [], 0⟩

/-- `RoundRobinStrategy::push`: enqueue into the sub-queue at the shared
index and advance the index cyclically. -/
def rrPush {α : Type} (s : RRState α) (x : α) : RRState α :=
  ⟨s.queues.set s.current_queue ((s.queues.getD s.current_queue []) ++ [x]),
   (s.current_queue + 1) % s.queues.length⟩

/-- Scan helper of `RoundRobinStrategy::pop`: try offsets `i, i+1, ...`
(`rem` of them) from `cur`, returning the first index whose sub-queue is
nonempty. -/
def rrFindAux {α : Type} (qs : List (List α)) (cur : ℕ) : ℕ → ℕ → Option ℕ
  | _, 0 => none
  | i, rem + 1 =>
    let idx := (cur + i) % qs.length
    if (qs.getD idx []).isEmpty then rrFindAux qs cur (i + 1) rem
    else some idx

/-- `RoundRobinStrategy::pop`: scan the `k` sub-queues starting at the
shared index, pop the front of the first nonempty one, and set the index
just past it; throws (`none`) when all sub-queues are empty. -/
def rrPop {α : Type} (s : RRState α) : Option (α × RRState α) :=
  match rrFindAux s.queues s.current_queue 0 s.queues.length with
  | none => none
  | some idx =>
    match s.queues.getD idx [] with
    | [] => none
    | x :: rest =>
      some (x, ⟨s.queues.set idx rest, (idx + 1) % s.queues.length⟩)

/-- Run a schedule through the RoundRobin strategy, collecting popped
items. -/
def runRR {α : Type} : List (QOp α) → RRState α → Option (List α)
  | [], _ => some []
  | .push x :: ops, s => runRR ops (rrPush s x)
  | .pop :: ops, s =>
    match rrPop s with
    | none => none
    | some (y, s') => (runRR ops s').map (fun out => y :: out)

/-- Modelled from the spec: the claim's reading of RoundRobin, in which the
push destination cycles with its own push counter and pop scans from the
last-served index + 1, kept independently of pushes.  Compared against the
source model `rrPop`/`rrPush` above. -/
structure RRSpecState (α : Type) where
  queues : List (List α)
  next_push : ℕ
  scan_start : ℕ
deriving DecidableEq

/-- Spec-model push: destination index cycles with the push counter only. -/
def rrSpecPush {α : Type} (s : RRSpecState α) (x : α) : RRSpecState α :=
  ⟨s.queues.set (s.next_push % s.queues.length)
      ((s.queues.getD (s.next_push % s.queues.length) []) ++ [x]),
   s.next_push + 1, s.scan_start⟩

/-- Spec-model pop: scan from the stored last-served index + 1. -/
def rrSpecPop {α : Type} (s : RRSpecState α) : Option (α × RRSpecState α) :=
  match rrFindAux s.queues s.scan_start 0 s.queues.length with
  | none => none
  | some idx =>
    match s.queues.getD idx [] with
    | [] => none
    | x :: rest =>
      some (x, ⟨s.queues.set idx rest, s.next_push, (idx + 1) % s.queues.length⟩)

/-- Run a schedule through the spec-model RoundRobin. -/
def runRRSpec {α : Type} : List (QOp α) → RRSpecState α → Option (List α)
  | [], _ => some []
  | .push x :: ops, s => runRRSpec ops (rrSpecPush s x)
  | .pop :: ops, s =>
    match rrSpecPop s with
    | none => none
    | some (y, s') => (runRRSpec ops s').map (fun out => y :: out)

/-- Items labelled with consecutive priorities starting at `c` (the heap
contents after an uninterrupted sequence of pushes). -/
def withPrios {α : Type} (c : Int) : List α → List (PriorityItem α)
  | [] => []
  | x :: xs => ⟨x, c⟩ :: withPrios (c + 1) xs

end Disc

namespace Sim

/-- Counter invariant of claim C2 — completed + lost + jobs in system equals
total arrivals — together with the id-freshness fact that makes it
inductive: every tracked job id is below the next id to be handed out. -/
def CounterInv (s : SimState) : Prop :=
  s.jobs_completed + s.jobs_lost + s.active_jobs.length = s.total_arrivals ∧
  ∀ p ∈ s.active_jobs, p.1 < s.next_job_id

/-- State with the stored buffer capacity replaced, for comparing runs that
differ only in the capacity value (claim C10). -/
def withCap (c : Int) (s : SimState) : SimState :=
  { s with buffer_capacity := c }

/-- Reachable-state invariant for claim C4: single core, unbounded buffer,
Deterministic(d) inter-arrival and Deterministic(v) service samples with
`v ≤ d`.  Either the core is idle (empty buffer and active table, one
pending arrival), or it is busy with a job `j` that started the moment it
arrived, one pending arrival at `ta` and the pending departure at
`j.start_time + v`; in the first busy alternative the departure is not past
the pending arrival and every buffered job arrived exactly at the pending
departure time (ties only), while in the second (reachable only for
`d < 0`) the pending arrival precedes the departure forever.  In every case
all recorded wait samples are `0`. -/
def WaitInv (d v : ℚ) (s : SimState) : Prop :=
  s.buffer_capacity = -1 ∧
  (∀ w ∈ s.wait_times, w = 0) ∧
  (∀ p ∈ s.active_jobs, p.1 < s.next_job_id) ∧
  ((s.cores_busy = [false] ∧ s.job_queue = [] ∧ s.active_jobs = [] ∧
      ∃ ta, s.event_queue.Perm [Event.mkArrival ta]) ∨
   (∃ j ta,
      s.cores_busy = [true] ∧
      s.event_queue.Perm
        [Event.mkArrival ta, Event.mkDeparture (j.start_time + v) j.id 0] ∧
      s.active_jobs = (j.id, j) :: s.job_queue.map (fun k => (k.id, k)) ∧
      j.start_time = j.arrival_time ∧
      ((j.start_time + v ≤ ta ∧
          (∀ k ∈ s.job_queue, k.arrival_time = j.start_time + v ∧
            k.service_time = v) ∧
          (s.job_queue = [] → ta = j.arrival_time + d) ∧
          (s.job_queue ≠ [] → d = v ∧ ta = j.start_time + v + d) ∧
          (2 ≤ s.job_queue.length → d = 0)) ∨
        (ta < j.start_time + v ∧ d < 0))))

end Sim

/-! General helper lemmas. -/

theorem foldl_add_map_sum {α : Type} (f : α → ℚ) (l : List α) (c : ℚ) :
    l.foldl (fun acc t => acc + f t) c = c + (l.map f).sum := by
  induction l generalizing c with
  | nil => simp
  | cons x xs ih => simp [List.foldl_cons, ih, add_assoc]

theorem foldl_add_sum (l : List ℚ) (c : ℚ) :
    l.foldl (· + ·) c = c + l.sum := by
  have h := foldl_add_map_sum (fun t => t) l c
  simpa using h

theorem foldl_add_nonneg {α : Type} (f : α → ℚ) (l : List α) (c : ℚ)
    (hc : 0 ≤ c) (hf : ∀ x ∈ l, 0 ≤ f x) :
    0 ≤ l.foldl (fun acc t => acc + f t) c := by
  rw [foldl_add_map_sum]
  have : 0 ≤ (l.map f).sum := by
    apply List.sum_nonneg
    intro x hx
    obtain ⟨y, hy, rfl⟩ := List.mem_map.mp hx
    exact hf y hy
  linarith

/-! Claim theorems: error handling of the constructors (C8). -/

/-- C8: construction fails (throws, modelled by `none`) exactly on the
invalid argument combinations: engine with `num_cores ≤ 0`, Exponential
with `λ ≤ 0`, Uniform with `a ≥ b`, Erlang with `k ≤ 0` or `λ ≤ 0`; every
other combination constructs successfully (Deterministic always does). -/
theorem construction_validation (nc cap k : Int) (lam a b lam2 v : ℚ) :
    ((Sim.mkSimulator nc cap).isSome ↔ 0 < nc) ∧
    ((Gen.ExponentialGenerator.create lam).isSome ↔ 0 < lam) ∧
    ((Gen.UniformGenerator.create a b).isSome ↔ a < b) ∧
    ((Gen.ErlangGenerator.create k lam2).isSome ↔ 0 < k ∧ 0 < lam2) ∧
    (Gen.DeterministicGenerator.create v).isSome := by
  refine ⟨?_, ?_, ?_, ?_, rfl⟩
  · unfold Sim.mkSimulator
    split <;> simp <;> omega
  · unfold Gen.ExponentialGenerator.create
    split <;> simp <;> linarith
  · unfold Gen.UniformGenerator.create
    split <;> simp <;> linarith
  · unfold Gen.ErlangGenerator.create
    split
    · next hk =>
      simp only [Option.isSome_none, Bool.false_eq_true, false_iff]
      rintro ⟨h1, -⟩
      omega
    · next hk =>
      split
      · next hl =>
        simp only [Option.isSome_none, Bool.false_eq_true, false_iff]
        rintro ⟨-, h2⟩
        linarith
      · next hl =>
        simp only [Option.isSome_some, true_iff]
        exact ⟨by omega, by linarith⟩

/-! Claim theorems: sample non-negativity (C6). -/

/-- C6 counterexample: `UniformGenerator(-2, -1)` is accepted by the
constructor (it only requires `a < b`), yet `generate()` at the valid
source value `u = 0 ∈ [0, 1)` returns `-2 < 0` — so a successfully
constructed generator can return a negative sample, contradicting the
claim. -/
theorem uniform_negative_sample :
    Gen.UniformGenerator.create (-2) (-1) = some ⟨-2, -1⟩ ∧
    (0 : ℚ) ≤ 0 ∧ (0 : ℚ) < 1 ∧
    Gen.UniformGenerator.generate ⟨-2, -1⟩ 0 = -2 ∧ (-2 : ℚ) < 0 := by
  refine ⟨?_, le_refl 0, by norm_num, ?_, by norm_num⟩
  · unfold Gen.UniformGenerator.create
    norm_num
  · unfold Gen.UniformGenerator.generate
    norm_num

/-- C6 amended: sample bounds that do hold.  A Uniform(a, b) sample from a
source value `u ∈ [0, 1)` lies in `[a, b)` — hence is non-negative whenever
`a ≥ 0`; Deterministic returns exactly its stored value; an Erlang sample
is non-negative whenever the underlying exponential-library draws are. -/
theorem generator_sample_bounds (g : Gen.UniformGenerator) (u v : ℚ)
    (e : Gen.ErlangGenerator) (draws : ℕ → ℚ)
    (hab : g.a < g.b) (hu0 : 0 ≤ u) (hu1 : u < 1) :
    (g.a ≤ g.generate u ∧ g.generate u < g.b) ∧
    (0 ≤ g.a → 0 ≤ g.generate u) ∧
    Gen.DeterministicGenerator.generate ⟨v⟩ = v ∧
    ((∀ i, 0 ≤ draws i) → 0 ≤ e.generate draws) := by
  have hgen : g.generate u = g.a + u * (g.b - g.a) := rfl
  have hle : g.a ≤ g.generate u := by
    rw [hgen]
    nlinarith
  have hlt : g.generate u < g.b := by
    rw [hgen]
    nlinarith
  refine ⟨⟨hle, hlt⟩, fun ha => le_trans ha hle, rfl, fun hd => ?_⟩
  unfold Gen.ErlangGenerator.generate
  exact foldl_add_nonneg draws _ 0 (le_refl 0) (fun x _ => hd x)

/-- C6 amended, witness instance: Uniform(1, 3) at source value `u = 1/2`
yields the non-negative sample `2`. -/
theorem generator_sample_bounds_witness :
    (1 : ℚ) < 3 ∧ (0 : ℚ) ≤ 1/2 ∧ (1/2 : ℚ) < 1 ∧
    (0 ≤ (⟨1, 3⟩ : Gen.UniformGenerator).generate (1/2)) := by
  refine ⟨by norm_num, by norm_num, by norm_num, ?_⟩
  exact (generator_sample_bounds ⟨1, 3⟩ (1/2) 0 ⟨1, 1⟩ (fun _ => 0)
    (by norm_num) (by norm_num) (by norm_num)).2.1 (by norm_num)

/-! Claim theorems: Bessel-corrected sample variance (C9). -/

/-- C9: for at least two recorded samples, `wait_time_variance` and
`system_time_variance` equal the Bessel-corrected sample variance — the sum
of squared deviations from the arithmetic mean, divided by `n - 1` — and
both return `0` for fewer than two samples. -/
theorem variance_is_bessel_corrected (s : Sim.SimState) :
    (s.wait_times.length < 2 → Sim.wait_time_variance s = 0) ∧
    (2 ≤ s.wait_times.length →
      Sim.wait_time_variance s =
        ((s.wait_times.map
            (fun x => (x - s.wait_times.sum / (s.wait_times.length : ℚ)) ^ 2)).sum) /
          ((s.wait_times.length : ℚ) - 1)) ∧
    (s.system_times.length < 2 → Sim.system_time_variance s = 0) ∧
    (2 ≤ s.system_times.length →
      Sim.system_time_variance s =
        ((s.system_times.map
            (fun x => (x - s.system_times.sum / (s.system_times.length : ℚ)) ^ 2)).sum) /
          ((s.system_times.length : ℚ) - 1)) := by
  have havgW : 2 ≤ s.wait_times.length →
      Sim.avg_wait_time s = s.wait_times.sum / (s.wait_times.length : ℚ) := by
    intro h2
    unfold Sim.avg_wait_time
    rw [if_neg (by intro he; rw [he] at h2; simp at h2)]
    rw [foldl_add_sum]
    ring
  have havgS : 2 ≤ s.system_times.length →
      Sim.avg_system_time s = s.system_times.sum / (s.system_times.length : ℚ) := by
    intro h2
    unfold Sim.avg_system_time
    rw [if_neg (by intro he; rw [he] at h2; simp at h2)]
    rw [foldl_add_sum]
    ring
  refine ⟨?_, ?_, ?_, ?_⟩
  · intro h
    unfold Sim.wait_time_variance
    rw [if_pos h]
  · intro h2
    have hv : Sim.wait_time_variance s =
        (s.wait_times.foldl
            (fun acc t => acc + (t - Sim.avg_wait_time s) * (t - Sim.avg_wait_time s)) 0) /
          ((s.wait_times.length : ℚ) - 1) := by
      unfold Sim.wait_time_variance
      rw [if_neg (by omega)]
    rw [hv, foldl_add_map_sum, havgW h2]
    congr 1
    rw [zero_add]
    apply congrArg List.sum
    apply List.map_congr_left
    intro x _
    ring
  · intro h
    unfold Sim.system_time_variance
    rw [if_pos h]
  · intro h2
    have hv : Sim.system_time_variance s =
        (s.system_times.foldl
            (fun acc t => acc + (t - Sim.avg_system_time s) * (t - Sim.avg_system_time s)) 0) /
          ((s.system_times.length : ℚ) - 1) := by
      unfold Sim.system_time_variance
      rw [if_neg (by omega)]
    rw [hv, foldl_add_map_sum, havgS h2]
    congr 1
    rw [zero_add]
    apply congrArg List.sum
    apply List.map_congr_left
    intro x _
    ring

/-- C9 witness: on a state with wait samples `[1, 3]` and system samples
`[2, 4]` the variances evaluate to `2` via the Bessel formula. -/
theorem variance_is_bessel_corrected_witness :
    Sim.wait_time_variance
        { Sim.resetState 1 (-1) with wait_times := [1, 3], system_times := [2, 4] } = 2 ∧
    Sim.system_time_variance
        { Sim.resetState 1 (-1) with wait_times := [1, 3], system_times := [2, 4] } = 2 := by
  constructor
  · rw [(variance_is_bessel_corrected
      { Sim.resetState 1 (-1) with wait_times := [1, 3], system_times := [2, 4] }).2.1
      (by norm_num [Sim.resetState])]
    norm_num [Sim.resetState]
  · rw [(variance_is_bessel_corrected
      { Sim.resetState 1 (-1) with wait_times := [1, 3], system_times := [2, 4] }).2.2.2
      (by norm_num [Sim.resetState])]
    norm_num [Sim.resetState]

/-! Claim theorems: the Priority discipline versus FIFO (C5). -/

namespace Disc

theorem runFIFO_pushes {α : Type} (xs : List α) (ops : List (QOp α)) (q : List α) :
    runFIFO (xs.map QOp.push ++ ops) q = runFIFO ops (q ++ xs) := by
  induction xs generalizing q with
  | nil => simp
  | cons x xs ih =>
    simp only [List.map_cons, List.cons_append, runFIFO, fifoPush, List.append_eq]
    rw [ih]
    simp [List.append_assoc]

theorem runFIFO_pops {α : Type} (m : ℕ) (q : List α) :
    runFIFO (List.replicate m QOp.pop) q =
      if m ≤ q.length then some (q.take m) else none := by
  induction m generalizing q with
  | zero => simp [runFIFO]
  | succ m ih =>
    cases q with
    | nil => simp [List.replicate_succ, runFIFO, fifoPop]
    | cons y q' =>
      simp only [List.replicate_succ, runFIFO, fifoPop]
      rw [ih]
      by_cases h : m ≤ q'.length
      · rw [if_pos h, if_pos (by simpa using Nat.succ_le_succ h)]
        simp
      · rw [if_neg h, if_neg (by simp; omega)]
        simp

theorem runPriority_pushes {α : Type} (xs : List α) (ops : List (QOp α))
    (q : List (PriorityItem α)) :
    runPriority (xs.map QOp.push ++ ops) q =
      runPriority ops (q ++ withPrios (q.length : Int) xs) := by
  induction xs generalizing q with
  | nil => simp [withPrios]
  | cons x xs ih =>
    simp only [List.map_cons, List.cons_append, runPriority, prioPush, List.append_eq]
    rw [ih]
    simp only [withPrios, List.length_append, List.length_cons, List.length_nil]
    rw [List.append_assoc]
    push_cast
    rfl

theorem prioPop_withPrios {α : Type} (c : Int) (x : α) (xs : List α) :
    prioPop (withPrios c (x :: xs)) = some (⟨x, c⟩, withPrios (c + 1) xs) := by
  induction xs generalizing c x with
  | nil => rfl
  | cons y ys ih =>
    have hx : withPrios c (x :: y :: ys) = ⟨x, c⟩ :: withPrios (c + 1) (y :: ys) := rfl
    rw [hx, prioPop.eq_2, ih (c + 1) y]
    simp

theorem runPriority_pops {α : Type} (m : ℕ) (c : Int) (xs : List α) :
    runPriority (List.replicate m QOp.pop) (withPrios c xs) =
      if m ≤ xs.length then some (xs.take m) else none := by
  induction m generalizing c xs with
  | zero => simp [runPriority]
  | succ m ih =>
    cases xs with
    | nil => simp [List.replicate_succ, runPriority, prioPop, withPrios]
    | cons x xs' =>
      simp only [List.replicate_succ, runPriority]
      rw [prioPop_withPrios]
      simp only [Option.map_eq_map]
      rw [ih (c + 1) xs']
      by_cases h : m ≤ xs'.length
      · rw [if_pos h, if_pos (by simp; omega)]
        simp
      · rw [if_neg h, if_neg (by simp; omega)]
        simp

end Disc

/-- C5 counterexample: the Priority discipline's pop sequence differs from
FIFO's on an interleaved schedule.  The key assigned at enqueue time is the
*current* queue size, not the push sequence number: in the schedule
push 10, push 20, push 30, pop, pop, push 40, pop, item 40 is pushed when
the queue holds one item (30, with key 2) and so receives key 1 < 2; the
final pop returns 40 under Priority but 30 under FIFO. -/
theorem priority_not_fifo :
    Disc.runPriority
        [Disc.QOp.push (10 : Int), .push 20, .push 30, .pop, .pop, .push 40, .pop] [] =
      some [10, 20, 40] ∧
    Disc.runFIFO
        [Disc.QOp.push (10 : Int), .push 20, .push 30, .pop, .pop, .push 40, .pop] [] =
      some [10, 20, 30] ∧
    (some [10, 20, 40] : Option (List Int)) ≠ some [10, 20, 30] := by
  refine ⟨by decide, by decide, by decide⟩

/-- C5 amended: the Priority discipline assigns each pushed item a key equal
to the number of items currently buffered at enqueue time; this equals the
push sequence number — and hence the pop sequence coincides with FIFO's —
for every schedule in which all pushes precede all pops. -/
theorem priority_fifo_on_separated_schedules {α : Type} (xs : List α) (m : ℕ) :
    Disc.runPriority (xs.map Disc.QOp.push ++ List.replicate m Disc.QOp.pop) [] =
    Disc.runFIFO (xs.map Disc.QOp.push ++ List.replicate m Disc.QOp.pop) [] := by
  rw [Disc.runPriority_pushes, Disc.runFIFO_pushes]
  simp only [List.nil_append]
  rw [Disc.runPriority_pops, Disc.runFIFO_pops]

/-! Claim theorems: the RoundRobin discipline (C7). -/

namespace Disc

theorem scan_covers (len cur i : ℕ) (hlen : 0 < len) (hi : i < len) :
    ∃ j, j < len ∧ (cur + j) % len = i := by
  refine ⟨(len - cur % len + i) % len, Nat.mod_lt _ hlen, ?_⟩
  rw [Nat.add_mod_mod]
  have hle1 : cur % len ≤ cur := Nat.mod_le _ _
  have hc : cur % len < len := Nat.mod_lt _ hlen
  have hdiv := Nat.mod_add_div cur len
  have h1 : cur + (len - cur % len + i) = len * (cur / len) + len + i := by omega
  rw [h1, show len * (cur / len) + len + i = len * (cur / len + 1) + i from by ring,
    Nat.mul_add_mod]
  exact Nat.mod_eq_of_lt hi

theorem rrFindAux_eq_none {α : Type} (qs : List (List α)) (cur : ℕ) :
    ∀ (rem i : ℕ), rrFindAux qs cur i rem = none ↔
      ∀ j < rem, qs.getD ((cur + i + j) % qs.length) [] = [] := by
  intro rem
  induction rem with
  | zero =>
    intro i
    simp [rrFindAux]
  | succ rem ih =>
    intro i
    simp only [rrFindAux]
    by_cases hq : (qs.getD ((cur + i) % qs.length) []).isEmpty
    · rw [if_pos hq, ih (i + 1)]
      have hq' : qs.getD ((cur + i) % qs.length) [] = [] := by
        simpa [List.isEmpty_iff] using hq
      constructor
      · intro h j hj
        cases j with
        | zero =>
          simpa using hq'
        | succ j' =>
          have h2 := h j' (by omega)
          have he : cur + (i + 1) + j' = cur + i + (j' + 1) := by omega
          rw [he] at h2
          exact h2
      · intro h j hj
        have h2 := h (j + 1) (by omega)
        have he : cur + i + (j + 1) = cur + (i + 1) + j := by omega
        rw [he] at h2
        exact h2
    · rw [if_neg hq]
      have hq' : qs.getD ((cur + i) % qs.length) [] ≠ [] := by
        simpa [List.isEmpty_iff] using hq
      simp only [reduceCtorEq, false_iff, not_forall]
      exact ⟨0, by omega, by simpa using hq'⟩

theorem rrFindAux_eq_some {α : Type} (qs : List (List α)) (cur : ℕ) :
    ∀ (rem i idx : ℕ), rrFindAux qs cur i rem = some idx →
      ∃ j, j < rem ∧ idx = (cur + i + j) % qs.length ∧
        qs.getD idx [] ≠ [] ∧
        ∀ j' < j, qs.getD ((cur + i + j') % qs.length) [] = [] := by
  intro rem
  induction rem with
  | zero =>
    intro i idx h
    simp [rrFindAux] at h
  | succ rem ih =>
    intro i idx h
    simp only [rrFindAux] at h
    by_cases hq : (qs.getD ((cur + i) % qs.length) []).isEmpty
    · rw [if_pos hq] at h
      have hq' : qs.getD ((cur + i) % qs.length) [] = [] := by
        simpa [List.isEmpty_iff] using hq
      obtain ⟨j, hj, hidx, hne, hall⟩ := ih (i + 1) idx h
      refine ⟨j + 1, by omega, ?_, hne, ?_⟩
      · rw [hidx]
        congr 1
        omega
      · intro j' hj'
        cases j' with
        | zero =>
          simpa using hq'
        | succ j'' =>
          have h2 := hall j'' (by omega)
          have he : cur + (i + 1) + j'' = cur + i + (j'' + 1) := by omega
          rw [he] at h2
          exact h2
    · rw [if_neg hq] at h
      have hq' : qs.getD ((cur + i) % qs.length) [] ≠ [] := by
        simpa [List.isEmpty_iff] using hq
      have hidx : idx = (cur + i) % qs.length := by
        injection h with h'
        exact h'.symm
      refine ⟨0, by omega, by rw [hidx]; congr 1, by rw [hidx]; exact hq',
        fun j' hj' => absurd hj' (by omega)⟩

end Disc

/-- C7 counterexample: on the schedule push 1, push 2, push 3, pop, push 4,
pop with k = 3 sub-queues, the source RoundRobin pops 1 then 3, while the
claim's behaviour (push destination cycling with the push count, pop
scanning from the last-served index + 1) pops 1 then 2 — because in the
source, push and pop share the single cursor `current_queue_`, so the push
of 4 lands in sub-queue 1 (not 0) and the second pop scans from index 2
(not 1). -/
theorem roundrobin_shared_cursor_counterexample :
    Disc.runRR [Disc.QOp.push (1 : Int), .push 2, .push 3, .pop, .push 4, .pop]
        (Disc.rrInit Int 3) = some [1, 3] ∧
    Disc.runRRSpec [Disc.QOp.push (1 : Int), .push 2, .push 3, .pop, .push 4, .pop]
        ⟨List.replicate 3 [], 0, 0⟩ = some [1, 2] ∧
    (some [1, 3] : Option (List Int)) ≠ some [1, 2] :=
  ⟨by decide, by decide, by decide⟩

/-- C7 amended: push inserts at the shared cursor and advances it, and the
same cursor is the scan start of pop (so pushes move the pop scan start
too).  Pop fails exactly when all k sub-queues are empty; a successful pop
returns the front of the first nonempty sub-queue met when scanning
cyclically from the shared cursor, removes it, and sets the cursor just
past the served sub-queue. -/
theorem roundrobin_pop_characterization {α : Type} (s : Disc.RRState α) :
    (Disc.rrPop s = none ↔ ∀ q ∈ s.queues, q = []) ∧
    (∀ x t, Disc.rrPop s = some (x, t) →
      ∃ j, j < s.queues.length ∧
        (∀ j' < j,
          s.queues.getD ((s.current_queue + j') % s.queues.length) [] = []) ∧
        ∃ rest,
          s.queues.getD ((s.current_queue + j) % s.queues.length) [] = x :: rest ∧
          t = ⟨s.queues.set ((s.current_queue + j) % s.queues.length) rest,
               ((s.current_queue + j) % s.queues.length + 1) % s.queues.length⟩) := by
  constructor
  · unfold Disc.rrPop
    rcases hfind : Disc.rrFindAux s.queues s.current_queue 0 s.queues.length
      with _ | idx
    · simp only []
      constructor
      · intro _ q hq
        have hall := (Disc.rrFindAux_eq_none s.queues s.current_queue
          s.queues.length 0).mp hfind
        obtain ⟨i, hi, rfl⟩ := List.mem_iff_getElem.mp hq
        have hlen : 0 < s.queues.length := by omega
        obtain ⟨j, hj, hmod⟩ := Disc.scan_covers s.queues.length s.current_queue i hlen hi
        have h2 := hall j hj
        rw [show s.current_queue + 0 + j = s.current_queue + j from by omega, hmod] at h2
        rwa [List.getD_eq_getElem?_getD, List.getElem?_eq_getElem hi,
          Option.getD_some] at h2
      · intro _
        trivial
    · obtain ⟨j, hj, hidx, hne, hall⟩ :=
        Disc.rrFindAux_eq_some s.queues s.current_queue s.queues.length 0 idx hfind
      rcases hqs : s.queues.getD idx [] with _ | ⟨x, rest⟩
      · exact absurd hqs hne
      · simp only [hqs, reduceCtorEq, false_iff, not_forall]
        have hidxlt : idx < s.queues.length := by
          rw [hidx]
          exact Nat.mod_lt _ (by omega)
        refine ⟨s.queues[idx], by simp [List.getElem_mem], fun hempty => ?_⟩
        rw [List.getD_eq_getElem?_getD, List.getElem?_eq_getElem hidxlt,
          Option.getD_some] at hqs
        rw [hempty] at hqs
        exact (List.cons_ne_nil x rest) hqs.symm
  · intro x t h
    unfold Disc.rrPop at h
    rcases hfind : Disc.rrFindAux s.queues s.current_queue 0 s.queues.length
      with _ | idx
    · rw [hfind] at h
      exact absurd h (by simp)
    · rw [hfind] at h
      obtain ⟨j, hj, hidx, hne, hall⟩ :=
        Disc.rrFindAux_eq_some s.queues s.current_queue s.queues.length 0 idx hfind
      have h2 : (match s.queues.getD idx [] with
          | [] => (none : Option (α × Disc.RRState α))
          | y :: rest =>
            some (y, ⟨s.queues.set idx rest, (idx + 1) % s.queues.length⟩)) =
          some (x, t) := h
      rcases hqs : s.queues.getD idx [] with _ | ⟨y, rest⟩
      · exact absurd hqs hne
      · rw [hqs] at h2
        have h3 : some (y, (⟨s.queues.set idx rest,
            (idx + 1) % s.queues.length⟩ : Disc.RRState α)) = some (x, t) := h2
        have hx : y = x ∧ t = ⟨s.queues.set idx rest, (idx + 1) % s.queues.length⟩ := by
          injection h3 with h4
          injection h4 with ha hb
          exact ⟨ha, hb.symm⟩
        obtain ⟨rfl, rfl⟩ := hx
        have he : (s.current_queue + 0 + j) = s.current_queue + j := by omega
        rw [he] at hidx
        refine ⟨j, hj, ?_, rest, ?_, ?_⟩
        · intro j' hj'
          have h2 := hall j' hj'
          rw [show s.current_queue + 0 + j' = s.current_queue + j' from by omega] at h2
          exact h2
        · rw [← hidx]
          exact hqs
        · rw [← hidx]

/-- C7 amended, witness instance: with two sub-queues `[[1], [2]]` and the
shared cursor at 1, pop returns 2 (the front of sub-queue 1, found at scan
offset 0) and sets the cursor to 0. -/
theorem roundrobin_pop_characterization_witness :
    ∃ j, j < 2 ∧
      (∀ j' < j,
        ([[1], [2]] : List (List Int)).getD ((1 + j') % 2) [] = []) ∧
      ∃ rest,
        ([[1], [2]] : List (List Int)).getD ((1 + j) % 2) [] = 2 :: rest ∧
        (⟨[[1], []], 0⟩ : Disc.RRState Int) =
          ⟨([[1], [2]] : List (List Int)).set ((1 + j) % 2) rest,
           ((1 + j) % 2 + 1) % 2⟩ :=
  (roundrobin_pop_characterization ⟨[[1], [2]], 1⟩).2 2 ⟨[[1], []], 0⟩ (by decide)

/-! Association-list lemmas for the active-job table. -/

namespace Sim

theorem assocFind_eq_none_iff (l : List (Int × Job)) (k : Int) :
    assocFind l k = none ↔ ∀ p ∈ l, p.1 ≠ k := by
  induction l with
  | nil => simp [assocFind]
  | cons p rest ih =>
    obtain ⟨k', v'⟩ := p
    simp only [assocFind]
    by_cases hk : k' = k
    · subst hk
      simp
    · rw [if_neg hk, ih]
      constructor
      · intro h p hp
        rcases List.mem_cons.mp hp with rfl | hp'
        · exact hk
        · exact h p hp'
      · intro h p hp
        exact h p (List.mem_cons_of_mem _ hp)

theorem assocSet_length_absent (l : List (Int × Job)) (k : Int) (v : Job)
    (h : assocFind l k = none) : (assocSet l k v).length = l.length + 1 := by
  induction l with
  | nil => rfl
  | cons p rest ih =>
    obtain ⟨k', v'⟩ := p
    simp only [assocFind] at h
    simp only [assocSet]
    by_cases hk : k' = k
    · rw [if_pos hk] at h
      exact absurd h (by simp)
    · rw [if_neg hk] at h
      rw [if_neg hk]
      simp [ih h]

theorem assocSet_length_present (l : List (Int × Job)) (k : Int) (v j : Job)
    (h : assocFind l k = some j) : (assocSet l k v).length = l.length := by
  induction l with
  | nil => simp [assocFind] at h
  | cons p rest ih =>
    obtain ⟨k', v'⟩ := p
    simp only [assocFind] at h
    simp only [assocSet]
    by_cases hk : k' = k
    · rw [if_pos hk]
      simp
    · rw [if_neg hk] at h
      rw [if_neg hk]
      simp [ih h]

theorem assocFind_assocSet_self (l : List (Int × Job)) (k : Int) (v : Job) :
    assocFind (assocSet l k v) k = some v := by
  induction l with
  | nil => simp [assocSet, assocFind]
  | cons p rest ih =>
    obtain ⟨k', v'⟩ := p
    simp only [assocSet]
    by_cases hk : k' = k
    · rw [if_pos hk]
      simp [assocFind]
    · rw [if_neg hk]
      simp only [assocFind]
      rw [if_neg hk]
      exact ih

theorem assocErase_length (l : List (Int × Job)) (k : Int) (j : Job)
    (h : assocFind l k = some j) : l.length = (assocErase l k).length + 1 := by
  induction l with
  | nil => simp [assocFind] at h
  | cons p rest ih =>
    obtain ⟨k', v'⟩ := p
    simp only [assocFind] at h
    simp only [assocErase]
    by_cases hk : k' = k
    · rw [if_pos hk]
      simp
    · rw [if_neg hk] at h
      rw [if_neg hk]
      simp [ih h]

theorem assocErase_assocSet_absent (l : List (Int × Job)) (k : Int) (v : Job)
    (h : assocFind l k = none) : assocErase (assocSet l k v) k = l := by
  induction l with
  | nil => simp [assocSet, assocErase]
  | cons p rest ih =>
    obtain ⟨k', v'⟩ := p
    simp only [assocFind] at h
    by_cases hk : k' = k
    · rw [if_pos hk] at h
      exact absurd h (by simp)
    · rw [if_neg hk] at h
      simp only [assocSet]
      rw [if_neg hk]
      simp only [assocErase]
      rw [if_neg hk]
      rw [ih h]

theorem mem_assocSet (l : List (Int × Job)) (k : Int) (v : Job)
    (p : Int × Job) (hp : p ∈ assocSet l k v) : p = (k, v) ∨ p ∈ l := by
  induction l with
  | nil =>
    simp [assocSet] at hp
    exact Or.inl hp
  | cons q rest ih =>
    obtain ⟨k', v'⟩ := q
    simp only [assocSet] at hp
    by_cases hk : k' = k
    · rw [if_pos hk] at hp
      rcases List.mem_cons.mp hp with rfl | hp'
      · exact Or.inl rfl
      · exact Or.inr (List.mem_cons_of_mem _ hp')
    · rw [if_neg hk] at hp
      rcases List.mem_cons.mp hp with rfl | hp'
      · exact Or.inr (List.mem_cons_self _ _)
      · rcases ih hp' with h1 | h2
        · exact Or.inl h1
        · exact Or.inr (List.mem_cons_of_mem _ h2)

theorem mem_assocErase (l : List (Int × Job)) (k : Int)
    (p : Int × Job) (hp : p ∈ assocErase l k) : p ∈ l := by
  induction l with
  | nil => simp [assocErase] at hp
  | cons q rest ih =>
    obtain ⟨k', v'⟩ := q
    simp only [assocErase] at hp
    by_cases hk : k' = k
    · rw [if_pos hk] at hp
      exact List.mem_cons_of_mem _ hp
    · rw [if_neg hk] at hp
      rcases List.mem_cons.mp hp with rfl | hp'
      · exact List.mem_cons_self _ _
      · exact List.mem_cons_of_mem _ (ih hp')

theorem mem_assocModify_fst (l : List (Int × Job)) (k : Int) (f : Job → Job)
    (p : Int × Job) (hp : p ∈ assocModify l k f) : ∃ q ∈ l, p.1 = q.1 := by
  induction l with
  | nil => simp [assocModify] at hp
  | cons q rest ih =>
    obtain ⟨k', v'⟩ := q
    simp only [assocModify] at hp
    by_cases hk : k' = k
    · rw [if_pos hk] at hp
      rcases List.mem_cons.mp hp with rfl | hp'
      · exact ⟨(k', v'), List.mem_cons_self _ _, rfl⟩
      · exact ⟨p, List.mem_cons_of_mem _ hp', rfl⟩
    · rw [if_neg hk] at hp
      rcases List.mem_cons.mp hp with rfl | hp'
      · exact ⟨(k', v'), List.mem_cons_self _ _, rfl⟩
      · obtain ⟨q2, hq2, he⟩ := ih hp'
        exact ⟨q2, List.mem_cons_of_mem _ hq2, he⟩

theorem assocModify_length (l : List (Int × Job)) (k : Int) (f : Job → Job) :
    (assocModify l k f).length = l.length := by
  induction l with
  | nil => rfl
  | cons q rest ih =>
    obtain ⟨k', v'⟩ := q
    simp only [assocModify]
    by_cases hk : k' = k
    · rw [if_pos hk]
      simp
    · rw [if_neg hk]
      simp [ih]

end Sim

namespace Sim

theorem assocFind_some_mem (l : List (Int × Job)) (k : Int) (j : Job)
    (h : assocFind l k = some j) : (k, j) ∈ l := by
  induction l with
  | nil => simp [assocFind] at h
  | cons p rest ih =>
    obtain ⟨k', v'⟩ := p
    simp only [assocFind] at h
    by_cases hk : k' = k
    · rw [if_pos hk] at h
      injection h with h'
      subst hk
      subst h'
      exact List.mem_cons_self _ _
    · rw [if_neg hk] at h
      exact List.mem_cons_of_mem _ (ih h)

/-! Preservation of the counter invariant (C2) by every engine operation. -/

theorem counterInv_updateBusyStatistics (s : SimState) (h : CounterInv s) :
    CounterInv (updateBusyStatistics s) := by
  unfold updateBusyStatistics
  split
  · exact h
  · exact h

theorem counterInv_processArrival (aS sS : ℕ → ℚ) (s : SimState)
    (h : CounterInv s) : CounterInv (processArrival aS sS s) := by
  obtain ⟨hc, hf⟩ := h
  have hnone : assocFind s.active_jobs s.next_job_id = none := by
    rw [assocFind_eq_none_iff]
    exact fun p hp => ne_of_lt (hf p hp)
  unfold processArrival
  simp only []
  split
  · refine ⟨?_, ?_⟩
    · simp only [scheduleNextArrival, scheduleDeparture, occupyCore]
      rw [assocModify_length, assocSet_length_absent _ _ _ hnone]
      omega
    · intro p hp
      simp only [scheduleNextArrival, scheduleDeparture, occupyCore] at hp ⊢
      obtain ⟨q, hq, he⟩ := mem_assocModify_fst _ _ _ p hp
      rcases mem_assocSet _ _ _ q hq with rfl | hq'
      · rw [he]
        omega
      · have := hf q hq'
        omega
  · split
    · refine ⟨?_, ?_⟩
      · simp only [scheduleNextArrival]
        rw [assocErase_assocSet_absent _ _ _ hnone]
        omega
      · intro p hp
        simp only [scheduleNextArrival] at hp ⊢
        have hmem := mem_assocErase _ _ p hp
        rcases mem_assocSet _ _ _ p hmem with rfl | hp'
        · omega
        · have := hf p hp'
          omega
    · refine ⟨?_, ?_⟩
      · simp only [scheduleNextArrival]
        rw [assocSet_length_absent _ _ _ hnone]
        omega
      · intro p hp
        simp only [scheduleNextArrival] at hp ⊢
        rcases mem_assocSet _ _ _ p hp with rfl | hp'
        · omega
        · have := hf p hp'
          omega

theorem counterInv_processDeparture (jid cid : Int) (s : SimState)
    (h : CounterInv s) : CounterInv (processDeparture jid cid s) := by
  obtain ⟨hc, hf⟩ := h
  unfold processDeparture
  split
  · exact ⟨hc, hf⟩
  · next job0 heq =>
    simp only [releaseCore]
    have hjid : jid < s.next_job_id := hf _ (assocFind_some_mem _ _ _ heq)
    have hsetlen : (assocSet s.active_jobs jid
        { job0 with finish_time := s.current_time }).length = s.active_jobs.length :=
      assocSet_length_present _ _ _ _ heq
    have hsetfind := assocFind_assocSet_self s.active_jobs jid
      { job0 with finish_time := s.current_time }
    have heraselen := assocErase_length _ jid _ hsetfind
    have hfresh2 : ∀ p ∈ assocErase (assocSet s.active_jobs jid
        { job0 with finish_time := s.current_time }) jid, p.1 < s.next_job_id := by
      intro p hp
      have hmem := mem_assocErase _ _ p (by exact hp)
      rcases mem_assocSet _ _ _ p hmem with rfl | hp'
      · exact hjid
      · exact hf p hp'
    split
    · refine ⟨?_, ?_⟩
      · simp only []
        omega
      · intro p hp
        simp only [] at hp
        exact hfresh2 p hp
    · next next_job restQ hq =>
      split
      · refine ⟨?_, ?_⟩
        · simp only []
          omega
        · intro p hp
          simp only [] at hp
          exact hfresh2 p hp
      · next jts0 heq2 =>
        simp only [scheduleDeparture, occupyCore]
        have hlen2 : (assocSet (assocErase (assocSet s.active_jobs jid
            { job0 with finish_time := s.current_time }) jid) next_job.id
            { jts0 with start_time := s.current_time }).length =
            (assocErase (assocSet s.active_jobs jid
              { job0 with finish_time := s.current_time }) jid).length :=
          assocSet_length_present _ _ _ _ heq2
        refine ⟨?_, ?_⟩
        · simp only []
          omega
        · intro p hp
          simp only [] at hp
          rcases mem_assocSet _ _ _ p hp with rfl | hp'
          · have := hfresh2 _ (assocFind_some_mem _ _ _ heq2)
            simpa using this
          · exact hfresh2 p hp'

theorem counterInv_simStep (aS sS : ℕ → ℚ) (sel : ℕ) (s s' : SimState)
    (hstep : simStep aS sS sel s = some s') (h : CounterInv s) :
    CounterInv s' := by
  unfold simStep at hstep
  split at hstep
  · exact absurd hstep (by simp)
  · next ev rest heq =>
    simp only [] at hstep
    injection hstep with hstep
    subst hstep
    obtain ⟨tm, ty, jid2, cid2⟩ := ev
    cases ty
    · exact counterInv_processArrival _ _ _ (counterInv_updateBusyStatistics _ h)
    · exact counterInv_processDeparture _ _ _ (counterInv_updateBusyStatistics _ h)

theorem counterInv_runLoop (aS sS : ℕ → ℚ) (sels : ℕ → ℕ)
    (cont : SimState → Bool) :
    ∀ (fuel k : ℕ) (s : SimState), CounterInv s →
      CounterInv (runLoop aS sS sels cont k fuel s) := by
  intro fuel
  induction fuel with
  | zero => exact fun k s h => h
  | succ fuel ih =>
    intro k s h
    rw [runLoop]
    split
    · split
      · next s' hstep => exact ih _ _ (counterInv_simStep _ _ _ _ _ hstep h)
      · exact h
    · exact h

end Sim

/-- C2: at every event boundary of a run — i.e. in the state after the loop
has processed any number of events, for `run` and for `run_until_jobs`, any
configuration, any generator streams, and any tie-break order — the counter
equation `jobs_completed + jobs_lost + jobs_in_system = total_arrivals`
holds, where `jobs_in_system` is the size of the active-job table (jobs in
service or buffered). -/
theorem counter_equation_at_event_boundaries (aS sS : ℕ → ℚ) (sels : ℕ → ℕ)
    (nc : ℕ) (cap : Int) (T : ℚ) (n : ℕ) (fuel : ℕ) :
    ((Sim.run aS sS sels nc cap T fuel).jobs_completed +
        (Sim.run aS sS sels nc cap T fuel).jobs_lost +
        Sim.jobs_in_system (Sim.run aS sS sels nc cap T fuel) =
      (Sim.run aS sS sels nc cap T fuel).total_arrivals) ∧
    ((Sim.run_until_jobs aS sS sels nc cap n fuel).jobs_completed +
        (Sim.run_until_jobs aS sS sels nc cap n fuel).jobs_lost +
        Sim.jobs_in_system (Sim.run_until_jobs aS sS sels nc cap n fuel) =
      (Sim.run_until_jobs aS sS sels nc cap n fuel).total_arrivals) := by
  have hinit : Sim.CounterInv
      (Sim.scheduleNextArrival aS (Sim.resetState nc cap)) := by
    refine ⟨rfl, ?_⟩
    intro p hp
    simp [Sim.scheduleNextArrival, Sim.resetState] at hp
  constructor
  · exact (Sim.counterInv_updateBusyStatistics _
      (Sim.counterInv_runLoop aS sS sels _ fuel 0 _ hinit)).1
  · exact (Sim.counterInv_updateBusyStatistics _
      (Sim.counterInv_runLoop aS sS sels _ fuel 0 _ hinit)).1

namespace Sim

/-! No job is ever lost with the unbounded-buffer sentinel (C3). -/

theorem processArrival_lost_unbounded (aS sS : ℕ → ℚ) (s : SimState)
    (hcap : s.buffer_capacity = -1) :
    (processArrival aS sS s).jobs_lost = s.jobs_lost ∧
    (processArrival aS sS s).buffer_capacity = s.buffer_capacity := by
  unfold processArrival
  simp only []
  split
  · exact ⟨rfl, rfl⟩
  · split
    · next hfull =>
      exfalso
      simp [bufferFull, hcap] at hfull
    · exact ⟨rfl, rfl⟩

theorem processDeparture_lost_cap (jid cid : Int) (s : SimState) :
    (processDeparture jid cid s).jobs_lost = s.jobs_lost ∧
    (processDeparture jid cid s).buffer_capacity = s.buffer_capacity := by
  unfold processDeparture
  split
  · exact ⟨rfl, rfl⟩
  · next job0 heq =>
    simp only [releaseCore]
    split
    · exact ⟨rfl, rfl⟩
    · next nj rq hq =>
      split
      · exact ⟨rfl, rfl⟩
      · exact ⟨rfl, rfl⟩

theorem updateBusyStatistics_lost_cap (s : SimState) :
    (updateBusyStatistics s).jobs_lost = s.jobs_lost ∧
    (updateBusyStatistics s).buffer_capacity = s.buffer_capacity := by
  unfold updateBusyStatistics
  split
  · exact ⟨rfl, rfl⟩
  · exact ⟨rfl, rfl⟩

theorem simStep_lost_unbounded (aS sS : ℕ → ℚ) (sel : ℕ) (s s' : SimState)
    (hstep : simStep aS sS sel s = some s') (hcap : s.buffer_capacity = -1) :
    s'.jobs_lost = s.jobs_lost ∧ s'.buffer_capacity = -1 := by
  unfold simStep at hstep
  split at hstep
  · exact absurd hstep (by simp)
  · next ev rest heq =>
    simp only [] at hstep
    injection hstep with hstep
    subst hstep
    obtain ⟨tm, ty, jid2, cid2⟩ := ev
    cases ty
    · have hub := updateBusyStatistics_lost_cap
        { s with
          event_queue := rest,
          current_time := tm,
          processed_events := s.processed_events ++ [Event.mk tm EventType.arrival jid2 cid2] }
      have hpa := processArrival_lost_unbounded aS sS
        (updateBusyStatistics
          { s with
            event_queue := rest,
            current_time := tm,
            processed_events := s.processed_events ++ [Event.mk tm EventType.arrival jid2 cid2] })
        (by rw [hub.2]; exact hcap)
      exact ⟨by rw [hpa.1, hub.1], by rw [hpa.2, hub.2]; exact hcap⟩
    · have hub := updateBusyStatistics_lost_cap
        { s with
          event_queue := rest,
          current_time := tm,
          processed_events := s.processed_events ++ [Event.mk tm EventType.departure jid2 cid2] }
      have hpd := processDeparture_lost_cap jid2 cid2
        (updateBusyStatistics
          { s with
            event_queue := rest,
            current_time := tm,
            processed_events := s.processed_events ++ [Event.mk tm EventType.departure jid2 cid2] })
      exact ⟨by rw [hpd.1, hub.1], by rw [hpd.2, hub.2]; exact hcap⟩

theorem lost_zero_runLoop (aS sS : ℕ → ℚ) (sels : ℕ → ℕ)
    (cont : SimState → Bool) :
    ∀ (fuel k : ℕ) (s : SimState), s.buffer_capacity = -1 →
      (runLoop aS sS sels cont k fuel s).jobs_lost = s.jobs_lost ∧
      (runLoop aS sS sels cont k fuel s).buffer_capacity = -1 := by
  intro fuel
  induction fuel with
  | zero => exact fun k s hcap => ⟨rfl, hcap⟩
  | succ fuel ih =>
    intro k s hcap
    rw [runLoop]
    split
    · split
      · next s' hstep =>
        have h1 := simStep_lost_unbounded aS sS _ s s' hstep hcap
        have h2 := ih (k + 1) s' h1.2
        exact ⟨by rw [h2.1, h1.1], h2.2⟩
      · exact ⟨rfl, hcap⟩
    · exact ⟨rfl, hcap⟩

end Sim

/-- C3: for every completed run (any configuration, streams, tie-break
order, and fuel), `jobs_completed + jobs_lost ≤ total_arrivals`; and when
the run is configured with the unbounded-buffer sentinel `-1` (and at least
one core, per the claim), `jobs_lost = 0` — at all times, since the fuel
bound ranges over every event boundary. -/
theorem completed_lost_bounds (aS sS : ℕ → ℚ) (sels : ℕ → ℕ)
    (nc : ℕ) (cap : Int) (T : ℚ) (fuel : ℕ) (hnc : 1 ≤ nc) :
    ((Sim.run aS sS sels nc cap T fuel).jobs_completed +
        (Sim.run aS sS sels nc cap T fuel).jobs_lost ≤
      (Sim.run aS sS sels nc cap T fuel).total_arrivals) ∧
    (cap = -1 → (Sim.run aS sS sels nc cap T fuel).jobs_lost = 0) := by
  have hinit : Sim.CounterInv
      (Sim.scheduleNextArrival aS (Sim.resetState nc cap)) := by
    refine ⟨rfl, ?_⟩
    intro p hp
    simp [Sim.scheduleNextArrival, Sim.resetState] at hp
  unfold Sim.run
  have hcounter := (Sim.counterInv_updateBusyStatistics _
    (Sim.counterInv_runLoop aS sS sels
      (fun st => decide (st.current_time < T)) fuel 0 _ hinit)).1
  constructor
  · omega
  · intro hcap
    subst hcap
    have hloop := Sim.lost_zero_runLoop aS sS sels
      (fun st => decide (st.current_time < T)) fuel 0
      (Sim.scheduleNextArrival aS (Sim.resetState nc (-1))) rfl
    have hub := (Sim.updateBusyStatistics_lost_cap
      (Sim.runLoop aS sS sels (fun st => decide (st.current_time < T)) 0 fuel
        (Sim.scheduleNextArrival aS (Sim.resetState nc (-1))))).1
    rw [hub, hloop.1]
    rfl

/-- C3 witness: a concrete unbounded single-core run loses no jobs and
satisfies the bound. -/
theorem completed_lost_bounds_witness :
    (1 : ℕ) ≤ 1 ∧
    ((Sim.run (fun _ => 1) (fun _ => 1) (fun _ => 0) 1 (-1) 5 4).jobs_completed +
        (Sim.run (fun _ => 1) (fun _ => 1) (fun _ => 0) 1 (-1) 5 4).jobs_lost ≤
      (Sim.run (fun _ => 1) (fun _ => 1) (fun _ => 0) 1 (-1) 5 4).total_arrivals) ∧
    (Sim.run (fun _ => 1) (fun _ => 1) (fun _ => 0) 1 (-1) 5 4).jobs_lost = 0 := by
  have h := completed_lost_bounds (fun _ => 1) (fun _ => 1) (fun _ => 0) 1 (-1) 5 4
    (le_refl 1)
  exact ⟨le_refl 1, h.1, h.2 rfl⟩

namespace Sim

/-! Frame lemmas: event handlers change neither the clock nor the processed
history (C1). -/

theorem processArrival_time_processed (aS sS : ℕ → ℚ) (s : SimState) :
    (processArrival aS sS s).current_time = s.current_time ∧
    (processArrival aS sS s).processed_events = s.processed_events := by
  unfold processArrival
  simp only []
  split
  · exact ⟨rfl, rfl⟩
  · split
    · exact ⟨rfl, rfl⟩
    · exact ⟨rfl, rfl⟩

theorem processDeparture_time_processed (jid cid : Int) (s : SimState) :
    (processDeparture jid cid s).current_time = s.current_time ∧
    (processDeparture jid cid s).processed_events = s.processed_events := by
  unfold processDeparture
  split
  · exact ⟨rfl, rfl⟩
  · next job0 heq =>
    simp only [releaseCore]
    split
    · exact ⟨rfl, rfl⟩
    · split
      · exact ⟨rfl, rfl⟩
      · exact ⟨rfl, rfl⟩

theorem updateBusyStatistics_time_processed (s : SimState) :
    (updateBusyStatistics s).current_time = s.current_time ∧
    (updateBusyStatistics s).processed_events = s.processed_events := by
  unfold updateBusyStatistics
  split
  · exact ⟨rfl, rfl⟩
  · exact ⟨rfl, rfl⟩

/-- One loop iteration appends exactly the popped event to the history and
sets the clock to its timestamp. -/
theorem simStep_processed (aS sS : ℕ → ℚ) (sel : ℕ) (s s' : SimState)
    (hstep : simStep aS sS sel s = some s') :
    ∃ ev rest, selectMin sel s.event_queue = some (ev, rest) ∧
      s'.processed_events = s.processed_events ++ [ev] ∧
      s'.current_time = ev.time := by
  unfold simStep at hstep
  split at hstep
  · exact absurd hstep (by simp)
  · next ev rest heq =>
    simp only [] at hstep
    injection hstep with hstep
    subst hstep
    obtain ⟨tm, ty, jid2, cid2⟩ := ev
    refine ⟨⟨tm, ty, jid2, cid2⟩, rest, heq, ?_, ?_⟩
    · cases ty
      · rw [(processArrival_time_processed aS sS _).2,
          (updateBusyStatistics_time_processed _).2]
      · rw [(processDeparture_time_processed _ _ _).2,
          (updateBusyStatistics_time_processed _).2]
    · cases ty
      · rw [(processArrival_time_processed aS sS _).1,
          (updateBusyStatistics_time_processed _).1]
      · rw [(processDeparture_time_processed _ _ _).1,
          (updateBusyStatistics_time_processed _).1]

theorem overshoot_runLoop (aS sS : ℕ → ℚ) (sels : ℕ → ℕ) (T : ℚ) :
    ∀ (fuel k : ℕ) (s : SimState),
      (∀ e ∈ s.processed_events.dropLast, e.time < T) →
      (∀ e, s.processed_events.getLast? = some e → s.current_time = e.time) →
      (s.processed_events = [] → s.current_time = 0) →
      (∀ e ∈ (runLoop aS sS sels (fun st => decide (st.current_time < T))
          k fuel s).processed_events.dropLast, e.time < T) ∧
      (∀ e, (runLoop aS sS sels (fun st => decide (st.current_time < T))
          k fuel s).processed_events.getLast? = some e →
        (runLoop aS sS sels (fun st => decide (st.current_time < T))
          k fuel s).current_time = e.time) ∧
      ((runLoop aS sS sels (fun st => decide (st.current_time < T))
          k fuel s).processed_events = [] →
        (runLoop aS sS sels (fun st => decide (st.current_time < T))
          k fuel s).current_time = 0) := by
  intro fuel
  induction fuel with
  | zero => exact fun k s h1 h2 h3 => ⟨h1, h2, h3⟩
  | succ fuel ih =>
    intro k s h1 h2 h3
    rw [runLoop]
    split
    · next hguard =>
      have hlt : s.current_time < T := by
        have := (Bool.and_eq_true _ _).mp hguard
        exact of_decide_eq_true this.2
      split
      · next s' hstep =>
        obtain ⟨ev, rest, hpop, hproc, htime⟩ := simStep_processed aS sS _ s s' hstep
        refine ih (k + 1) s' ?_ ?_ ?_
        · intro e he
          rw [hproc, List.dropLast_concat] at he
          rcases List.eq_nil_or_concat s.processed_events with hnil | ⟨q, x, hcat⟩
          · rw [hnil] at he
            simp at he
          · rw [List.concat_eq_append] at hcat
            rw [hcat] at he
            rcases List.mem_append.mp he with hq | hx
            · apply h1
              rw [hcat, List.dropLast_concat]
              exact hq
            · have hex : e = x := by simpa using hx
              subst hex
              have hlast : s.processed_events.getLast? = some e := by
                rw [hcat]
                exact List.getLast?_concat _
              rw [← h2 e hlast]
              exact hlt
        · intro e he
          rw [hproc, List.getLast?_concat] at he
          injection he with he
          rw [htime, ← he]
        · intro he
          rw [hproc] at he
          simp at he
      · exact ⟨h1, h2, h3⟩
    · exact ⟨h1, h2, h3⟩

theorem countP_late_le_one (T : ℚ) (l : List Event)
    (h : ∀ e ∈ l.dropLast, e.time < T) :
    l.countP (fun e => decide (T ≤ e.time)) ≤ 1 := by
  rcases List.eq_nil_or_concat l with rfl | ⟨q, x, rfl⟩
  · simp
  · rw [List.concat_eq_append] at h ⊢
    rw [List.countP_append]
    have hq : q.countP (fun e => decide (T ≤ e.time)) = 0 := by
      rw [List.countP_eq_zero]
      intro e he
      have hlt := h e (by rwa [List.dropLast_concat])
      simpa using not_le.mpr hlt
    rw [hq]
    by_cases hx : T ≤ x.time <;> simp [List.countP_cons, hx]

end Sim

/-- C1 counterexample: with `run(10)`, a Deterministic(15) arrival stream and
one core, the loop tests `current_time < 10` on the *previous* clock value
before popping, so the arrival at time 15 — past the horizon — is popped
and fully processed (`total_arrivals` becomes 1), and after the run
`current_time = 15 > 10`, contradicting both halves of the claim. -/
theorem run_exceeds_duration :
    (Sim.run (fun _ => 15) (fun _ => 5) (fun _ => 0) 1 (-1) 10 3).current_time = 15 ∧
    ¬ (Sim.run (fun _ => 15) (fun _ => 5) (fun _ => 0) 1 (-1) 10 3).current_time ≤ 10 ∧
    (Sim.run (fun _ => 15) (fun _ => 5) (fun _ => 0) 1 (-1) 10 3).processed_events =
      [Sim.Event.mkArrival 15] ∧
    (Sim.run (fun _ => 15) (fun _ => 5) (fun _ => 0) 1 (-1) 10 3).total_arrivals = 1 := by
  norm_num [Sim.run, Sim.runLoop, Sim.simStep, Sim.resetState, Sim.scheduleNextArrival,
    Sim.selectMin, Sim.minTimeOf, Sim.extractTimed, Sim.updateBusyStatistics,
    Sim.processArrival, Sim.processDeparture, Sim.assocSet, Sim.assocFind, Sim.assocErase,
    Sim.assocModify, Sim.findFreeCore, Sim.bufferFull, Sim.occupyCore, Sim.releaseCore,
    Sim.scheduleDeparture, Sim.countBusyCores, Sim.Event.mkArrival, Sim.Event.mkDeparture,
    List.countP, List.countP.go, List.findIdx?]

/-- C1 amended: the loop checks `current_time < T` (the previous event's
timestamp) *before* popping, so every processed event except possibly the
last one has timestamp `< T`; at most one processed event has timestamp
`≥ T` (only the final one); and after `run(T)` the clock equals the last
processed event's timestamp (0 when no event was processed) — which may
exceed `T`, but only by that single final event. -/
theorem run_overshoot_at_most_one (aS sS : ℕ → ℚ) (sels : ℕ → ℕ) (nc : ℕ)
    (cap : Int) (T : ℚ) (fuel : ℕ) :
    (∀ e ∈ (Sim.run aS sS sels nc cap T fuel).processed_events.dropLast,
      e.time < T) ∧
    ((Sim.run aS sS sels nc cap T fuel).processed_events.countP
        (fun e => decide (T ≤ e.time)) ≤ 1) ∧
    (∀ e, (Sim.run aS sS sels nc cap T fuel).processed_events.getLast? = some e →
      (Sim.run aS sS sels nc cap T fuel).current_time = e.time) ∧
    ((Sim.run aS sS sels nc cap T fuel).processed_events = [] →
      (Sim.run aS sS sels nc cap T fuel).current_time = 0) := by
  have hinv := Sim.overshoot_runLoop aS sS sels T fuel 0
    (Sim.scheduleNextArrival aS (Sim.resetState nc cap))
    (by intro e he; simp [Sim.scheduleNextArrival, Sim.resetState] at he)
    (by intro e he; simp [Sim.scheduleNextArrival, Sim.resetState] at he)
    (fun _ => rfl)
  unfold Sim.run
  have hub := Sim.updateBusyStatistics_time_processed
    (Sim.runLoop aS sS sels (fun st => decide (st.current_time < T)) 0 fuel
      (Sim.scheduleNextArrival aS (Sim.resetState nc cap)))
  refine ⟨?_, ?_, ?_, ?_⟩
  · rw [hub.2]
    exact hinv.1
  · rw [hub.2]
    exact Sim.countP_late_le_one T _ hinv.1
  · intro e he
    rw [hub.2] at he
    rw [hub.1]
    exact hinv.2.1 e he
  · intro he
    rw [hub.2] at he
    rw [hub.1]
    exact hinv.2.2 he

/-- C1 amended, witness instance: in the overshooting run the single
processed event is the arrival at 15, and the final clock equals its
timestamp. -/
theorem run_overshoot_at_most_one_witness :
    (Sim.run (fun _ => 15) (fun _ => 5) (fun _ => 0) 1 (-1) 10 3).processed_events.getLast?
      = some (Sim.Event.mkArrival 15) ∧
    (Sim.run (fun _ => 15) (fun _ => 5) (fun _ => 0) 1 (-1) 10 3).current_time
      = (Sim.Event.mkArrival 15).time := by
  have hl : (Sim.run (fun _ => 15) (fun _ => 5) (fun _ => 0) 1 (-1) 10 3).processed_events.getLast?
      = some (Sim.Event.mkArrival 15) := by
    norm_num [Sim.run, Sim.runLoop, Sim.simStep, Sim.resetState, Sim.scheduleNextArrival,
      Sim.selectMin, Sim.minTimeOf, Sim.extractTimed, Sim.updateBusyStatistics,
      Sim.processArrival, Sim.processDeparture, Sim.assocSet, Sim.assocFind, Sim.assocErase,
      Sim.assocModify, Sim.findFreeCore, Sim.bufferFull, Sim.occupyCore, Sim.releaseCore,
      Sim.scheduleDeparture, Sim.countBusyCores, Sim.Event.mkArrival, Sim.Event.mkDeparture,
      List.countP, List.countP.go, List.findIdx?]
  exact ⟨hl, (run_overshoot_at_most_one (fun _ => 15) (fun _ => 5) (fun _ => 0)
    1 (-1) 10 3).2.2.1 (Sim.Event.mkArrival 15) hl⟩

namespace Sim

/-! A non-positive capacity other than the sentinel `-1` makes the buffer
permanently full (C10). -/

theorem bufferFull_of_nonpos (s : SimState) (h1 : s.buffer_capacity ≤ 0)
    (h2 : s.buffer_capacity ≠ -1) : bufferFull s = true := by
  unfold bufferFull
  rw [if_neg h2]
  simp only [ge_iff_le, decide_eq_true_eq]
  omega

theorem processArrival_cap (aS sS : ℕ → ℚ) (s : SimState) :
    (processArrival aS sS s).buffer_capacity = s.buffer_capacity := by
  unfold processArrival
  simp only []
  split
  · rfl
  · split <;> rfl

theorem processArrival_queue_empty (aS sS : ℕ → ℚ) (s : SimState)
    (h1 : s.buffer_capacity ≤ 0) (h2 : s.buffer_capacity ≠ -1)
    (hq : s.job_queue = []) : (processArrival aS sS s).job_queue = [] := by
  unfold processArrival
  simp only []
  split
  · exact hq
  · split
    · exact hq
    · next hfull =>
      exact absurd (bufferFull_of_nonpos _ h1 h2) hfull

theorem processDeparture_queue_empty (jid cid : Int) (s : SimState)
    (hq : s.job_queue = []) : (processDeparture jid cid s).job_queue = [] := by
  unfold processDeparture
  split
  · exact hq
  · next job0 heq =>
    simp only [releaseCore]
    split
    · exact hq
    · next nj rq hq2 =>
      rw [hq] at hq2
      simp at hq2

theorem simStep_zero_buffer (aS sS : ℕ → ℚ) (sel : ℕ) (s s' : SimState)
    (hstep : simStep aS sS sel s = some s')
    (h1 : s.buffer_capacity ≤ 0) (h2 : s.buffer_capacity ≠ -1)
    (hq : s.job_queue = []) :
    s'.buffer_capacity = s.buffer_capacity ∧ s'.job_queue = [] := by
  unfold simStep at hstep
  split at hstep
  · exact absurd hstep (by simp)
  · next ev rest heq =>
    simp only [] at hstep
    injection hstep with hstep
    subst hstep
    obtain ⟨tm, ty, jid2, cid2⟩ := ev
    cases ty
    · constructor
      · rw [processArrival_cap, (updateBusyStatistics_lost_cap _).2]
      · exact processArrival_queue_empty aS sS _
          (by rw [(updateBusyStatistics_lost_cap _).2]; exact h1)
          (by rw [(updateBusyStatistics_lost_cap _).2]; exact h2)
          (by
            have : (updateBusyStatistics
                { s with
                  event_queue := rest,
                  current_time := tm,
                  processed_events := s.processed_events ++
                    [Event.mk tm EventType.arrival jid2 cid2] }).job_queue =
                s.job_queue := by
              unfold updateBusyStatistics
              split <;> rfl
            rw [this]
            exact hq)
    · constructor
      · rw [(processDeparture_lost_cap _ _ _).2, (updateBusyStatistics_lost_cap _).2]
      · exact processDeparture_queue_empty jid2 cid2 _
          (by
            have : (updateBusyStatistics
                { s with
                  event_queue := rest,
                  current_time := tm,
                  processed_events := s.processed_events ++
                    [Event.mk tm EventType.departure jid2 cid2] }).job_queue =
                s.job_queue := by
              unfold updateBusyStatistics
              split <;> rfl
            rw [this]
            exact hq)

theorem zero_buffer_runLoop (aS sS : ℕ → ℚ) (sels : ℕ → ℕ)
    (cont : SimState → Bool) :
    ∀ (fuel k : ℕ) (s : SimState),
      s.buffer_capacity ≤ 0 → s.buffer_capacity ≠ -1 → s.job_queue = [] →
      (runLoop aS sS sels cont k fuel s).buffer_capacity = s.buffer_capacity ∧
      (runLoop aS sS sels cont k fuel s).job_queue = [] := by
  intro fuel
  induction fuel with
  | zero => exact fun k s _ _ hq => ⟨rfl, hq⟩
  | succ fuel ih =>
    intro k s h1 h2 hq
    rw [runLoop]
    split
    · split
      · next s' hstep =>
        have hs := simStep_zero_buffer aS sS _ s s' hstep h1 h2 hq
        have hih := ih (k + 1) s' (by rw [hs.1]; exact h1) (by rw [hs.1]; exact h2) hs.2
        exact ⟨by rw [hih.1, hs.1], hih.2⟩
      · exact ⟨rfl, hq⟩
    · exact ⟨rfl, hq⟩

end Sim

/-- C10: a negative `buffer_capacity` other than the sentinel `-1` (and
likewise capacity `0`, which the hypotheses also admit — hence "behaves as
if the buffer had capacity 0") is accepted by the constructor, keeps
`buffer_full()` permanently true, keeps `queue_length()` at 0 throughout
every run, and makes every arrival that finds all cores busy increment
`jobs_lost` without entering the buffer. -/
theorem negative_capacity_acts_as_zero (aS sS : ℕ → ℚ) (sels : ℕ → ℕ)
    (nc : ℕ) (cap : Int) (T : ℚ) (fuel : ℕ) (ncz : Int)
    (h1 : cap ≤ 0) (h2 : cap ≠ -1) (hncz : 0 < ncz) :
    (Sim.mkSimulator ncz cap).isSome = true ∧
    Sim.bufferFull (Sim.run aS sS sels nc cap T fuel) = true ∧
    Sim.queue_length (Sim.run aS sS sels nc cap T fuel) = 0 ∧
    (∀ s : Sim.SimState, s.buffer_capacity = cap →
      Sim.findFreeCore s.cores_busy = none →
      (Sim.processArrival aS sS s).jobs_lost = s.jobs_lost + 1 ∧
      (Sim.processArrival aS sS s).job_queue = s.job_queue) := by
  have hloop := Sim.zero_buffer_runLoop aS sS sels
    (fun st => decide (st.current_time < T)) fuel 0
    (Sim.scheduleNextArrival aS (Sim.resetState nc cap)) h1 h2 rfl
  have hubq : ∀ t : Sim.SimState, (Sim.updateBusyStatistics t).job_queue = t.job_queue ∧
      (Sim.updateBusyStatistics t).buffer_capacity = t.buffer_capacity := by
    intro t
    unfold Sim.updateBusyStatistics
    split <;> exact ⟨rfl, rfl⟩
  refine ⟨?_, ?_, ?_, ?_⟩
  · unfold Sim.mkSimulator
    rw [if_neg (by omega)]
    rfl
  · apply Sim.bufferFull_of_nonpos
    · unfold Sim.run
      rw [(hubq _).2, hloop.1]
      exact h1
    · unfold Sim.run
      rw [(hubq _).2, hloop.1]
      exact h2
  · unfold Sim.run Sim.queue_length
    rw [(hubq _).1, hloop.2]
    rfl
  · intro s hcap hbusy
    unfold Sim.processArrival
    simp only []
    split
    · next fc heq =>
      rw [hbusy] at heq
      cases heq
    · split
      · exact ⟨rfl, rfl⟩
      · next hfull =>
        refine absurd (Sim.bufferFull_of_nonpos _ ?_ ?_) hfull
        · rw [show (({ s with
              total_arrivals := s.total_arrivals + 1,
              service_idx := s.service_idx + 1,
              next_job_id := s.next_job_id + 1,
              active_jobs := Sim.assocSet s.active_jobs s.next_job_id
                ⟨s.next_job_id, s.current_time, sS s.service_idx, -1, -1⟩ } :
              Sim.SimState)).buffer_capacity = s.buffer_capacity from rfl, hcap]
          exact h1
        · rw [show (({ s with
              total_arrivals := s.total_arrivals + 1,
              service_idx := s.service_idx + 1,
              next_job_id := s.next_job_id + 1,
              active_jobs := Sim.assocSet s.active_jobs s.next_job_id
                ⟨s.next_job_id, s.current_time, sS s.service_idx, -1, -1⟩ } :
              Sim.SimState)).buffer_capacity = s.buffer_capacity from rfl, hcap]
          exact h2

/-- C10 witness: capacity `-5` with one core — constructor accepts, the
buffer reports full, the queue stays empty over a concrete run, and an
arrival into an all-busy state is lost. -/
theorem negative_capacity_acts_as_zero_witness :
    (Sim.mkSimulator 1 (-5)).isSome = true ∧
    Sim.bufferFull (Sim.run (fun _ => 1) (fun _ => 3) (fun _ => 0) 1 (-5) 6 6) = true ∧
    Sim.queue_length (Sim.run (fun _ => 1) (fun _ => 3) (fun _ => 0) 1 (-5) 6 6) = 0 ∧
    (Sim.processArrival (fun _ => 1) (fun _ => 3)
        { Sim.resetState 1 (-5) with cores_busy := [true] }).jobs_lost =
      ({ Sim.resetState 1 (-5) with cores_busy := [true] } : Sim.SimState).jobs_lost + 1 := by
  have h := negative_capacity_acts_as_zero (fun _ => 1) (fun _ => 3) (fun _ => 0)
    1 (-5) 6 6 1 (by norm_num) (by norm_num) (by norm_num)
  exact ⟨h.1, h.2.1, h.2.2.1,
    (h.2.2.2 { Sim.resetState 1 (-5) with cores_busy := [true] } rfl rfl).1⟩

namespace Sim

/-! Properties of the event-queue extraction `selectMin` (C4). -/

theorem minTimeOf_le (e : Event) (es : List Event) :
    ∀ f ∈ e :: es, minTimeOf e es ≤ f.time := by
  induction es generalizing e with
  | nil =>
    intro f hf
    rcases List.mem_singleton.mp hf with rfl
    simp [minTimeOf]
  | cons g gs ih =>
    intro f hf
    simp only [minTimeOf]
    rcases List.mem_cons.mp hf with rfl | hf'
    · exact min_le_left _ _
    · exact le_trans (min_le_right _ _) (ih g f hf')

theorem minTimeOf_attained (e : Event) (es : List Event) :
    ∃ f ∈ e :: es, f.time = minTimeOf e es := by
  induction es generalizing e with
  | nil => exact ⟨e, List.mem_singleton_self _, rfl⟩
  | cons g gs ih =>
    rcases le_total e.time (minTimeOf g gs) with h | h
    · exact ⟨e, List.mem_cons_self _ _, by simp [minTimeOf, min_eq_left h]⟩
    · obtain ⟨f, hf, hfe⟩ := ih g
      exact ⟨f, List.mem_cons_of_mem _ hf, by simp [minTimeOf, min_eq_right h, hfe]⟩

theorem countP_min_pos (e : Event) (es : List Event) :
    0 < (e :: es).countP (fun f => decide (f.time = minTimeOf e es)) := by
  obtain ⟨f, hf, hfe⟩ := minTimeOf_attained e es
  exact List.countP_pos_iff.mpr ⟨f, hf, by simpa using hfe⟩

theorem extractTimed_perm (m : ℚ) :
    ∀ (n : ℕ) (es : List Event) (x : Event) (rest : List Event),
      extractTimed m n es = some (x, rest) →
      x.time = m ∧ es.Perm (x :: rest) := by
  intro n es
  induction es generalizing n with
  | nil =>
    intro x rest h
    simp [extractTimed] at h
  | cons e es ih =>
    intro x rest h
    simp only [extractTimed] at h
    by_cases he : e.time = m
    · rw [if_pos he] at h
      cases n with
      | zero =>
        injection h with h'
        injection h' with h1 h2
        subst h1
        subst h2
        exact ⟨he, List.Perm.refl _⟩
      | succ n' =>
        have h2 : (match extractTimed m n' es with
            | some (y, rest') => some (y, e :: rest')
            | none => (none : Option (Event × List Event))) = some (x, rest) := h
        rcases hrec : extractTimed m n' es with _ | ⟨y, rest'⟩
        · rw [hrec] at h2
          simp at h2
        · rw [hrec] at h2
          injection h2 with h3
          injection h3 with h4 h5
          subst h4
          subst h5
          obtain ⟨hy, hperm⟩ := ih n' y rest' hrec
          refine ⟨hy, ?_⟩
          have hp2 : (e :: es).Perm (e :: y :: rest') := hperm.cons e
          exact hp2.trans (List.Perm.swap y e rest')
    · rw [if_neg he] at h
      have h2 : (match extractTimed m n es with
          | some (y, rest') => some (y, e :: rest')
          | none => (none : Option (Event × List Event))) = some (x, rest) := h
      rcases hrec : extractTimed m n es with _ | ⟨y, rest'⟩
      · rw [hrec] at h2
        simp at h2
      · rw [hrec] at h2
        injection h2 with h3
        injection h3 with h4 h5
        subst h4
        subst h5
        obtain ⟨hy, hperm⟩ := ih n y rest' hrec
        refine ⟨hy, ?_⟩
        have hp2 : (e :: es).Perm (e :: y :: rest') := hperm.cons e
        exact hp2.trans (List.Perm.swap y e rest')

theorem extractTimed_isSome (m : ℚ) :
    ∀ (es : List Event) (n : ℕ),
      n < es.countP (fun f => decide (f.time = m)) →
      (extractTimed m n es).isSome := by
  intro es
  induction es with
  | nil =>
    intro n h
    simp at h
  | cons e es ih =>
    intro n h
    simp only [extractTimed]
    by_cases he : e.time = m
    · rw [if_pos he]
      cases n with
      | zero => simp
      | succ n' =>
        have hc : (e :: es).countP (fun f => decide (f.time = m)) =
            es.countP (fun f => decide (f.time = m)) + 1 := by
          rw [List.countP_cons]
          simp [he]
        rw [hc] at h
        have hrec := ih n' (by omega)
        rcases hx : extractTimed m n' es with _ | ⟨y, rest'⟩
        · rw [hx] at hrec
          simp at hrec
        · simp [hx]
    · rw [if_neg he]
      have hc : (e :: es).countP (fun f => decide (f.time = m)) =
          es.countP (fun f => decide (f.time = m)) := by
        rw [List.countP_cons]
        simp [he]
      rw [hc] at h
      have hrec := ih n h
      rcases hx : extractTimed m n es with _ | ⟨y, rest'⟩
      · rw [hx] at hrec
        simp at hrec
      · simp [hx]

/-- Every pop yields some minimal-time event, and the queue is the popped
event plus the remainder, up to permutation — for every tie-break
selector. -/
theorem selectMin_spec (sel : ℕ) (es : List Event) (hne : es ≠ []) :
    ∃ x rest, selectMin sel es = some (x, rest) ∧ es.Perm (x :: rest) ∧
      ∀ f ∈ es, x.time ≤ f.time := by
  match es with
  | [] => exact absurd rfl hne
  | e :: tail =>
    have hc := countP_min_pos e tail
    have hn := Nat.mod_lt sel hc
    have hsome := extractTimed_isSome (minTimeOf e tail) (e :: tail) _ hn
    rcases hex : extractTimed (minTimeOf e tail)
        (sel % (e :: tail).countP (fun f => decide (f.time = minTimeOf e tail)))
        (e :: tail) with _ | ⟨x, rest⟩
    · rw [hex] at hsome
      simp at hsome
    · obtain ⟨hxm, hperm⟩ := extractTimed_perm _ _ _ _ _ hex
      refine ⟨x, rest, ?_, hperm, fun f hf => hxm ▸ minTimeOf_le e tail f hf⟩
      unfold selectMin
      simp only []
      exact hex

theorem perm_pair {x a b : Event} {rest : List Event}
    (h : (x :: rest).Perm [a, b]) :
    (x = a ∧ rest = [b]) ∨ (x = b ∧ rest = [a]) := by
  have hx : x ∈ [a, b] := h.mem_iff.mp (List.mem_cons_self _ _)
  rcases List.mem_pair.mp hx with rfl | rfl
  · left
    exact ⟨rfl, List.perm_singleton.mp h.cons_inv⟩
  · right
    refine ⟨rfl, ?_⟩
    have h2 : (x :: rest).Perm (x :: [a]) := h.trans (List.Perm.swap x a [])
    exact List.perm_singleton.mp h2.cons_inv

theorem selectMin_pair (sel : ℕ) (es : List Event) (a b : Event)
    (hperm : es.Perm [a, b]) :
    (selectMin sel es = some (a, [b]) ∧ a.time ≤ b.time) ∨
    (selectMin sel es = some (b, [a]) ∧ b.time ≤ a.time) := by
  have hne : es ≠ [] := by
    intro h
    subst h
    have := hperm.length_eq
    simp at this
  obtain ⟨x, rest, hsel, hp, hmin⟩ := selectMin_spec sel es hne
  have hp2 : (x :: rest).Perm [a, b] := hp.symm.trans hperm
  rcases perm_pair hp2 with ⟨rfl, rfl⟩ | ⟨rfl, rfl⟩
  · exact Or.inl ⟨hsel, hmin b (hperm.mem_iff.mpr (by simp))⟩
  · exact Or.inr ⟨hsel, hmin a (hperm.mem_iff.mpr (by simp))⟩

theorem selectMin_singleton (sel : ℕ) (es : List Event) (a : Event)
    (hperm : es.Perm [a]) : selectMin sel es = some (a, []) := by
  have he : es = [a] := List.perm_singleton.mp hperm
  subst he
  unfold selectMin
  simp [minTimeOf, extractTimed, List.countP_cons, Nat.mod_one]

/-! Per-field frame lemmas of the busy-statistics update (C4). -/

theorem ubs_event_queue (s : SimState) :
    (updateBusyStatistics s).event_queue = s.event_queue := by
  unfold updateBusyStatistics
  split <;> rfl

theorem ubs_job_queue (s : SimState) :
    (updateBusyStatistics s).job_queue = s.job_queue := by
  unfold updateBusyStatistics
  split <;> rfl

theorem ubs_cores_busy (s : SimState) :
    (updateBusyStatistics s).cores_busy = s.cores_busy := by
  unfold updateBusyStatistics
  split <;> rfl

theorem ubs_active_jobs (s : SimState) :
    (updateBusyStatistics s).active_jobs = s.active_jobs := by
  unfold updateBusyStatistics
  split <;> rfl

theorem ubs_wait_times (s : SimState) :
    (updateBusyStatistics s).wait_times = s.wait_times := by
  unfold updateBusyStatistics
  split <;> rfl

theorem ubs_current_time (s : SimState) :
    (updateBusyStatistics s).current_time = s.current_time := by
  unfold updateBusyStatistics
  split <;> rfl

theorem ubs_next_job_id (s : SimState) :
    (updateBusyStatistics s).next_job_id = s.next_job_id := by
  unfold updateBusyStatistics
  split <;> rfl

theorem ubs_buffer_capacity (s : SimState) :
    (updateBusyStatistics s).buffer_capacity = s.buffer_capacity := by
  unfold updateBusyStatistics
  split <;> rfl

theorem ubs_service_idx (s : SimState) :
    (updateBusyStatistics s).service_idx = s.service_idx := by
  unfold updateBusyStatistics
  split <;> rfl

theorem ubs_arrival_idx (s : SimState) :
    (updateBusyStatistics s).arrival_idx = s.arrival_idx := by
  unfold updateBusyStatistics
  split <;> rfl

theorem assocSet_append_of_absent (l : List (Int × Job)) (k : Int) (v : Job)
    (h : assocFind l k = none) : assocSet l k v = l ++ [(k, v)] := by
  induction l with
  | nil => rfl
  | cons p rest ih =>
    obtain ⟨k', v'⟩ := p
    simp only [assocFind] at h
    simp only [assocSet]
    by_cases hk : k' = k
    · rw [if_pos hk] at h
      exact absurd h (by simp)
    · rw [if_neg hk] at h
      rw [if_neg hk, ih h]
      rfl

theorem avg_wait_time_of_all_zero (s : SimState)
    (h : ∀ w ∈ s.wait_times, w = 0) : avg_wait_time s = 0 := by
  unfold avg_wait_time
  split
  · rfl
  · have hsum : s.wait_times.foldl (· + ·) 0 = 0 := by
      rw [foldl_add_sum, List.sum_eq_zero h]
      ring
    rw [hsum]
    simp

end Sim

namespace Sim

/-! Characterizations of the handlers in the single-core C4 configurations. -/

theorem processArrival_idle_char (aS sS : ℕ → ℚ) (U : SimState)
    (hbusy : U.cores_busy = [false]) (hactive : U.active_jobs = []) :
    processArrival aS sS U =
      { U with
        total_arrivals := U.total_arrivals + 1,
        service_idx := U.service_idx + 1,
        arrival_idx := U.arrival_idx + 1,
        next_job_id := U.next_job_id + 1,
        active_jobs := [(U.next_job_id,
          ⟨U.next_job_id, U.current_time, sS U.service_idx, U.current_time, -1⟩)],
        cores_busy := [true],
        cores_finish_time := U.cores_finish_time.set 0 (U.current_time + sS U.service_idx),
        cores_current_job := U.cores_current_job.set 0 U.next_job_id,
        event_queue := (U.event_queue ++
          [Event.mkDeparture (U.current_time + sS U.service_idx) U.next_job_id 0]) ++
          [Event.mkArrival (U.current_time + aS U.arrival_idx)] } := by
  unfold processArrival scheduleNextArrival scheduleDeparture occupyCore
  simp only [hbusy, hactive, assocSet, assocModify,
    show findFreeCore [false] = some 0 from rfl, Event.mkArrival, Event.mkDeparture]
  simp

theorem processArrival_busy_char (aS sS : ℕ → ℚ) (U : SimState)
    (hbusy : U.cores_busy = [true]) (hcap : U.buffer_capacity = -1)
    (habsent : assocFind U.active_jobs U.next_job_id = none) :
    processArrival aS sS U =
      { U with
        total_arrivals := U.total_arrivals + 1,
        service_idx := U.service_idx + 1,
        arrival_idx := U.arrival_idx + 1,
        next_job_id := U.next_job_id + 1,
        active_jobs := U.active_jobs ++
          [(U.next_job_id, ⟨U.next_job_id, U.current_time, sS U.service_idx, -1, -1⟩)],
        job_queue := U.job_queue ++
          [⟨U.next_job_id, U.current_time, sS U.service_idx, -1, -1⟩],
        event_queue := U.event_queue ++
          [Event.mkArrival (U.current_time + aS U.arrival_idx)] } := by
  unfold processArrival scheduleNextArrival bufferFull
  simp only [hbusy, hcap, show findFreeCore [true] = none from rfl,
    assocSet_append_of_absent _ _ _ habsent, Event.mkArrival]
  simp

theorem processDeparture_empty_char (jid : Int) (U : SimState) (j : Job)
    (hactive : U.active_jobs = [(jid, j)]) (hq : U.job_queue = []) :
    processDeparture jid 0 U =
      { U with
        active_jobs := [],
        wait_times := U.wait_times ++ [Job.wait_time { j with finish_time := U.current_time }],
        system_times := U.system_times ++ [Job.system_time { j with finish_time := U.current_time }],
        cores_busy := U.cores_busy.set 0 false,
        cores_finish_time := U.cores_finish_time.set 0 0,
        cores_current_job := U.cores_current_job.set 0 (-1),
        jobs_completed := U.jobs_completed + 1 } := by
  unfold processDeparture releaseCore
  simp only [hactive, hq, assocFind, assocSet, assocErase]
  simp

theorem processDeparture_dispatch_char (jid : Int) (U : SimState) (j k1 : Job)
    (restQ : List Job)
    (hactive : U.active_jobs = (jid, j) :: (k1 :: restQ).map (fun k => (k.id, k)))
    (hq : U.job_queue = k1 :: restQ) :
    processDeparture jid 0 U =
      { U with
        active_jobs := (k1.id, { k1 with start_time := U.current_time }) ::
          restQ.map (fun k => (k.id, k)),
        job_queue := restQ,
        wait_times := U.wait_times ++ [Job.wait_time { j with finish_time := U.current_time }],
        system_times := U.system_times ++ [Job.system_time { j with finish_time := U.current_time }],
        cores_busy := (U.cores_busy.set 0 false).set 0 true,
        cores_finish_time := (U.cores_finish_time.set 0 0).set 0
          (U.current_time + k1.service_time),
        cores_current_job := (U.cores_current_job.set 0 (-1)).set 0 k1.id,
        jobs_completed := U.jobs_completed + 1,
        event_queue := U.event_queue ++
          [Event.mkDeparture (U.current_time + k1.service_time) k1.id 0] } := by
  unfold processDeparture releaseCore scheduleDeparture occupyCore
  simp only [hactive, hq, assocFind, assocSet, assocErase, List.map_cons,
    Event.mkDeparture]
  simp

end Sim

namespace Sim

/-! Preservation of the C4 invariant by one event-loop iteration. -/

theorem waitInv_simStep (d v : ℚ) (sel : ℕ) (s s' : SimState) (hdv : v ≤ d)
    (hstep : simStep (fun _ => d) (fun _ => v) sel s = some s')
    (h : WaitInv d v s) : WaitInv d v s' := by
  obtain ⟨hcap, hwz, hfresh, hcase⟩ := h
  unfold simStep at hstep
  split at hstep
  · exact absurd hstep (by simp)
  · next ev rest heq =>
    simp only [] at hstep
    injection hstep with hstep
    subst hstep
    rcases hcase with ⟨hbusy, hq, hactive, ta, hperm⟩ |
      ⟨j, ta, hbusy, hperm, hactive, hstart, hsub⟩
    · -- IDLE: the only pending event is the arrival at ta
      have hsel := selectMin_singleton sel s.event_queue _ hperm
      rw [heq] at hsel
      injection hsel with hsel
      injection hsel with hev hrest
      subst hev
      subst hrest
      simp only [Event.mkArrival]
      rw [processArrival_idle_char (fun _ => d) (fun _ => v) _ ?hb ?ha]
      case hb => rw [ubs_cores_busy]; exact hbusy
      case ha => rw [ubs_active_jobs]; exact hactive
      refine ⟨?_, ?_, ?_, Or.inr ⟨⟨s.next_job_id, ta, v, ta, -1⟩, ta + d, rfl,
        ?_, ?_, rfl, Or.inl ⟨?_, ?_, ?_, ?_, ?_⟩⟩⟩
      · simp only [ubs_buffer_capacity]
        exact hcap
      · simp only [ubs_wait_times]
        exact hwz
      · simp only [ubs_next_job_id]
        intro p hp
        rcases List.mem_singleton.mp hp with rfl
        simp only []
        omega
      · -- event queue permutation
        simp only [ubs_event_queue, ubs_current_time, ubs_next_job_id,
          ubs_service_idx, ubs_arrival_idx, Event.mkArrival, Event.mkDeparture]
        simp
        exact List.Perm.swap _ _ _
      · -- active-job table shape
        simp [hq, ubs_job_queue, ubs_next_job_id, ubs_current_time]
      · -- departure not past pending arrival
        simp only []
        linarith
      · -- buffered jobs (none)
        intro k hk
        simp [hq, ubs_job_queue] at hk
      · -- empty buffer: pending arrival offset
        intro _
        simp only []
      · -- nonempty buffer (impossible)
        intro hne
        simp [hq, ubs_job_queue] at hne
      · -- queue length bound (vacuous)
        intro hlen
        simp [hq, ubs_job_queue] at hlen
    · -- BUSY
      rcases selectMin_pair sel s.event_queue _ _ hperm with ⟨hsel, htle⟩ | ⟨hsel, htle⟩
      · -- popped the pending arrival
        rw [heq] at hsel
        injection hsel with hsel
        injection hsel with hev hrest
        subst hev
        subst hrest
        have htle' : ta ≤ j.start_time + v := htle
        simp only [Event.mkArrival]
        rw [processArrival_busy_char (fun _ => d) (fun _ => v) _ ?hb2 ?hc2 ?habs]
        case hb2 => rw [ubs_cores_busy]; exact hbusy
        case hc2 => rw [ubs_buffer_capacity]; exact hcap
        case habs =>
          rw [ubs_active_jobs, ubs_next_job_id, assocFind_eq_none_iff]
          intro p hp
          exact ne_of_lt (hfresh p hp)
        refine ⟨?_, ?_, ?_, Or.inr ⟨j, ta + d, ?_, ?_, ?_, hstart, ?_⟩⟩
        · simp only [ubs_buffer_capacity]
          exact hcap
        · simp only [ubs_wait_times]
          exact hwz
        · simp only [ubs_next_job_id, ubs_active_jobs, ubs_current_time, ubs_service_idx]
          intro p hp
          rcases List.mem_append.mp hp with hp1 | hp2
          · have := hfresh p hp1
            omega
          · rcases List.mem_singleton.mp hp2 with rfl
            simp only []
            omega
        · simp only [ubs_cores_busy]
          exact hbusy
        · simp only [ubs_event_queue, ubs_current_time, ubs_arrival_idx,
            Event.mkArrival, Event.mkDeparture]
          simp
          exact List.Perm.swap _ _ _
        · simp only [ubs_active_jobs, ubs_job_queue, ubs_next_job_id,
            ubs_current_time, ubs_service_idx]
          rw [hactive]
          simp [List.map_append]
        · -- sub-case analysis for the new buffer s.job_queue ++ [m]
          rcases hsub with ⟨hle, hbufall, hbufe, hbufne, hlen2⟩ | ⟨hlt, hdneg⟩
          · -- was B1, so the pop is a tie: ta = departure time
            have hta_eq : ta = j.start_time + v := le_antisymm htle' hle
            rcases hql : s.job_queue with _ | ⟨k0, q'⟩
            · -- buffer was empty: the tie forces d = v
              have hdv_eq : d = v := by
                have h1 := hbufe hql
                rw [hstart] at hta_eq
                linarith
              rcases le_or_lt 0 d with hd0 | hdneg
              · refine Or.inl ⟨?_, ?_, ?_, ?_, ?_⟩
                · linarith
                · intro k hk
                  simp [ubs_job_queue, ubs_next_job_id, ubs_current_time,
                    ubs_service_idx] at hk
                  subst hk
                  exact ⟨hta_eq, rfl⟩
                · intro habs2
                  simp at habs2
                · intro _
                  refine ⟨hdv_eq, ?_⟩
                  rw [← hta_eq]
                · intro hlen
                  simp [ubs_job_queue] at hlen
              · exact Or.inr ⟨by linarith, hdneg⟩
            · -- buffer was nonempty: d = v and the tie forces d = 0
              obtain ⟨hdv2, hta2⟩ := hbufne (by rw [hql]; simp)
              have hd0 : d = 0 := by linarith
              refine Or.inl ⟨?_, ?_, ?_, ?_, ?_⟩
              · linarith
              · intro k hk
                simp only [ubs_job_queue, ubs_next_job_id, ubs_current_time,
                  ubs_service_idx] at hk
                rcases List.mem_append.mp hk with hk1 | hk2
                · exact hbufall k (by rw [hql]; exact hk1)
                · rcases List.mem_singleton.mp hk2 with rfl
                  exact ⟨hta_eq, rfl⟩
              · intro habs2
                simp at habs2
              · intro _
                refine ⟨hdv2, ?_⟩
                linarith
              · intro _
                exact hd0
          · -- was B2: stays B2
            have hlt' : ta < j.start_time + v := hlt
            exact Or.inr ⟨by linarith, hdneg⟩
      · -- popped the pending departure
        rw [heq] at hsel
        injection hsel with hsel
        injection hsel with hev hrest
        subst hev
        subst hrest
        have htle2 : j.start_time + v ≤ ta := htle
        have hB1 : j.start_time + v ≤ ta ∧
            (∀ k ∈ s.job_queue, k.arrival_time = j.start_time + v ∧
              k.service_time = v) ∧
            (s.job_queue = [] → ta = j.arrival_time + d) ∧
            (s.job_queue ≠ [] → d = v ∧ ta = j.start_time + v + d) ∧
            (2 ≤ s.job_queue.length → d = 0) := by
          rcases hsub with hB | ⟨hlt, hdneg⟩
          · exact hB
          · exact absurd htle2 (not_le.mpr hlt)
        obtain ⟨hle, hbufall, hbufe, hbufne, hlen2⟩ := hB1
        clear hsub
        simp only [Event.mkDeparture]
        rcases hql : s.job_queue with _ | ⟨k0, q'⟩
        · -- empty buffer: the core goes idle again
          rw [processDeparture_empty_char j.id _ j ?hact ?hqU]
          case hact =>
            rw [ubs_active_jobs, hactive, hql]
            rfl
          case hqU => rw [ubs_job_queue]
          refine ⟨?_, ?_, ?_, Or.inl ⟨?_, ?_, rfl, ⟨ta, ?_⟩⟩⟩
          · simp only [ubs_buffer_capacity]
            exact hcap
          · simp only [ubs_wait_times, ubs_current_time]
            intro w hw
            rcases List.mem_append.mp hw with hw1 | hw2
            · exact hwz w hw1
            · rcases List.mem_singleton.mp hw2 with rfl
              simp [Job.wait_time, hstart]
          · intro p hp
            simp at hp
          · simp only [ubs_cores_busy, hbusy]
            rfl
          · simp [ubs_job_queue]
          · simp only [ubs_event_queue]
            exact List.Perm.refl _
        · -- nonempty buffer: dispatch the head onto the freed core
          rw [processDeparture_dispatch_char j.id _ j k0 q' ?hact2 ?hq2]
          case hact2 => rw [ubs_active_jobs, hactive, hql]
          case hq2 => rw [ubs_job_queue]
          obtain ⟨hk0a, hk0s⟩ := hbufall k0 (by rw [hql]; simp)
          obtain ⟨hd_eq_v, hta_eq⟩ := hbufne (by rw [hql]; simp)
          simp only [ubs_buffer_capacity, ubs_wait_times, ubs_current_time,
            ubs_event_queue, ubs_cores_busy, ubs_next_job_id, ubs_active_jobs,
            Event.mkArrival, Event.mkDeparture]
          refine ⟨hcap, ?_, ?_, Or.inr
            ⟨⟨k0.id, k0.arrival_time, k0.service_time, j.start_time + v, k0.finish_time⟩,
              ta, ?_, ?_, ?_, ?_, Or.inl ⟨?_, ?_, ?_, ?_, ?_⟩⟩⟩
          · intro w hw
            rcases List.mem_append.mp hw with hw1 | hw2
            · exact hwz w hw1
            · rcases List.mem_singleton.mp hw2 with rfl
              simp [Job.wait_time, hstart]
          · intro p hp
            rcases List.mem_cons.mp hp with rfl | hp'
            · have := hfresh (k0.id, k0) (by rw [hactive, hql]; simp)
              simpa using this
            · have := hfresh p (by
                rw [hactive, hql]
                simp only [List.map_cons]
                exact List.mem_cons_of_mem _ (List.mem_cons_of_mem _ hp'))
              exact this
          · simp [hbusy]
          · rw [hk0s]
            exact List.Perm.refl _
          · rfl
          · exact hk0a.symm
          · -- departure of the dispatched job not past the pending arrival
            simp only []
            rcases hqe : q' with _ | ⟨k1, q''⟩
            · linarith
            · have hd0 : d = 0 := hlen2 (by rw [hql, hqe]; simp)
              linarith
          · -- remaining buffered jobs
            intro k hk
            have hmem : k ∈ q' := hk
            rcases hqe : q' with _ | ⟨k1, q''⟩
            · rw [hqe] at hmem
              simp at hmem
            · have hd0 : d = 0 := hlen2 (by rw [hql, hqe]; simp)
              have hv0 : v = 0 := by linarith
              obtain ⟨hka, hks⟩ := hbufall k (by rw [hql]; exact List.mem_cons_of_mem _ hmem)
              constructor
              · rw [hka, hv0]
                ring_nf
              · exact hks
          · intro hq'
            subst hq'
            simp only []
            rw [hta_eq, hk0a]
          · intro hq'ne
            refine ⟨hd_eq_v, ?_⟩
            have hlen3 : 2 ≤ s.job_queue.length := by
              rw [hql]
              rcases hqe : q' with _ | ⟨k1, q''⟩
              · exact absurd hqe hq'ne
              · simp
            have hd0 : d = 0 := hlen2 hlen3
            have hv0 : v = 0 := by linarith
            rw [hta_eq, hd0, hv0]
            ring
          · intro hlen4
            apply hlen2
            rw [hql]
            simp only [List.length_cons]
            simp at hlen4
            omega


theorem waitInv_updateBusyStatistics (d v : ℚ) (s : SimState)
    (h : WaitInv d v s) : WaitInv d v (updateBusyStatistics s) := by
  unfold updateBusyStatistics
  split
  · exact h
  · exact h

theorem waitInv_runLoop (d v : ℚ) (sels : ℕ → ℕ) (cont : SimState → Bool)
    (hdv : v ≤ d) :
    ∀ (fuel k : ℕ) (s : SimState), WaitInv d v s →
      WaitInv d v (runLoop (fun _ => d) (fun _ => v) sels cont k fuel s) := by
  intro fuel
  induction fuel with
  | zero => exact fun k s h => h
  | succ fuel ih =>
    intro k s h
    rw [runLoop]
    split
    · split
      · next s' hstep => exact ih _ _ (waitInv_simStep d v _ s s' hdv hstep h)
      · exact h
    · exact h

end Sim

/-- C4: for an engine with Deterministic(d) inter-arrival samples,
Deterministic(v) service samples, a single core and the unbounded buffer,
`d ≥ v` implies `avg_wait_time()` is exactly 0 after any run — `run(T)` for
any horizon and fuel, and `run_until_jobs(n)` likewise — and for every
tie-break order between events sharing a timestamp (the selector stream
`sels` ranges over all of them). -/
theorem deterministic_no_queueing (d v T : ℚ) (sels : ℕ → ℕ) (fuel : ℕ)
    (n : ℕ) (hdv : v ≤ d) :
    Sim.avg_wait_time (Sim.run (fun _ => d) (fun _ => v) sels 1 (-1) T fuel) = 0 ∧
    Sim.avg_wait_time
      (Sim.run_until_jobs (fun _ => d) (fun _ => v) sels 1 (-1) n fuel) = 0 := by
  have hinit : Sim.WaitInv d v
      (Sim.scheduleNextArrival (fun _ => d) (Sim.resetState 1 (-1))) := by
    refine ⟨rfl, ?_, ?_, Or.inl ⟨rfl, rfl, rfl,
      ⟨0 + d, by simp [Sim.scheduleNextArrival, Sim.resetState]⟩⟩⟩
    · intro w hw
      simp [Sim.scheduleNextArrival, Sim.resetState] at hw
    · intro p hp
      simp [Sim.scheduleNextArrival, Sim.resetState] at hp
  constructor
  · have hloop := Sim.waitInv_runLoop d v sels
      (fun st => decide (st.current_time < T)) hdv fuel 0 _ hinit
    unfold Sim.run
    apply Sim.avg_wait_time_of_all_zero
    rw [Sim.ubs_wait_times]
    exact hloop.2.1
  · have hloop := Sim.waitInv_runLoop d v sels
      (fun st => decide (st.jobs_completed < n)) hdv fuel 0 _ hinit
    unfold Sim.run_until_jobs
    apply Sim.avg_wait_time_of_all_zero
    rw [Sim.ubs_wait_times]
    exact hloop.2.1

/-- C4 witness: Deterministic(2) arrivals, Deterministic(1) service, one
core, unbounded buffer — the mean wait is exactly 0 for `run(10)` and
`run_until_jobs(3)`. -/
theorem deterministic_no_queueing_witness :
    (1 : ℚ) ≤ 2 ∧
    Sim.avg_wait_time (Sim.run (fun _ => 2) (fun _ => 1) (fun _ => 0) 1 (-1) 10 20) = 0 ∧
    Sim.avg_wait_time
      (Sim.run_until_jobs (fun _ => 2) (fun _ => 1) (fun _ => 0) 1 (-1) 3 20) = 0 := by
  have h := deterministic_no_queueing 2 1 10 (fun _ => 0) 20 3 (by norm_num)
  exact ⟨by norm_num, h.1, h.2⟩
